import Mathlib

/-!
Verification development for the `data_sync` engine
(`src/data_sync/` of the repository): CSV/CDF synchronization into
relational tables with declarative job configuration, type inference,
filename-derived scope columns, schema evolution, upsert-based row
reconciliation and stale-row deletion.

The Python sources are shallowly embedded:

* Python strings are modelled as `List Char` (for character-level code:
  type inference, filename templates) or `String` (for identifiers).
* Database rows are association lists `List (String × String)` from
  column name to value; an absent key models SQL `NULL`.
* The SQL statements issued by the backends (`CREATE TABLE IF NOT
  EXISTS`, `ALTER TABLE ADD COLUMN`, `INSERT ... ON CONFLICT DO UPDATE`,
  `DELETE ... WHERE scope = ? AND id NOT IN (...)`) are given their
  documented semantics as state transitions on an in-memory table.
* Fallible code returns `Except String` / `Option`.

Each claim's theorem is stated over these embedded definitions.
-/

set_option autoImplicit false

namespace DataSync

/-! ## Association lists (Python dicts, database rows, schemas) -/

/-- First-occurrence lookup of a key in an association list. -/
def alookup {β : Type} : List (String × β) → String → Option β
  | [], _ => none
  | (k, v) :: t, c => if k = c then some v else alookup t c

/-- Keys of an association list, in order. -/
def akeys {β : Type} (r : List (String × β)) : List String := r.map Prod.fst

/-- Set key `c` to value `v`: update in place if present, else append
(the semantics of one SQL `SET c = v` assignment, or of a Python
`dict[c] = v` insertion, which keeps first-insertion order). -/
def aset {β : Type} : List (String × β) → String → β → List (String × β)
  | [], c, v => [(c, v)]
  | (k, w) :: t, c, v => if k = c then (k, v) :: t else (k, w) :: aset t c v

/-- Database row: association list from column name to value.
A missing key models SQL `NULL` for that column. -/
abbrev Row := List (String × String)

/-- Wellformed association lists mention each key at most once. -/
def NoDupKeys {β : Type} (r : List (String × β)) : Prop := (akeys r).Nodup

/-- Apply a sequence of column assignments left to right. -/
def rowApply (r : Row) (W : List (String × String)) : Row :=
  W.foldl (fun r p => aset r p.1 p.2) r

/-! ## Type inference engine (src/data_sync/type_detection.py) -/

/-- Characters stripped by Python `str.strip()` / matched by `\s`
(ASCII fragment). -/
def isPyWs (c : Char) : Bool :=
  c == ' ' || c == '\t' || c == '\n' || c == '\r' ||
  c == Char.ofNat 11 || c == Char.ofNat 12

/-- Python `str.strip()`: drop leading and trailing whitespace. -/
def pyStrip (l : List Char) : List Char :=
  ((l.dropWhile isPyWs).reverse.dropWhile isPyWs).reverse

/-- Tail of a Python integer literal after its first digit: digits with
single underscores allowed only between digits. -/
def intTail : List Char → Bool
  | [] => true
  | c :: rest =>
    if c.isDigit then intTail rest
    else if c = '_' then
      match rest with
      | [] => false
      | d :: r => d.isDigit && intTail r
    else false

/-- Unsigned digit part of a Python `int()`/`float()` literal. -/
def digitPart : List Char → Bool
  | [] => false
  | c :: rest => c.isDigit && intTail rest

/-- Python `int(value)` acceptance (`_is_integer`): optional surrounding
whitespace, optional sign, base-10 digits with medial underscores. -/
def isPyInt (l : List Char) : Bool :=
  match pyStrip l with
  | '+' :: r => digitPart r
  | '-' :: r => digitPart r
  | s => digitPart s

/-- Split a character list at the first occurrence of `'.'`. -/
def splitDot : List Char → List Char × Option (List Char)
  | [] => ([], none)
  | c :: rest =>
    if c = '.' then ([], some rest)
    else
      let p := splitDot rest
      (c :: p.1, p.2)

/-- Split a character list at the first occurrence of `e`/`E`. -/
def splitExp : List Char → List Char × Option (List Char)
  | [] => ([], none)
  | c :: rest =>
    if c = 'e' ∨ c = 'E' then ([], some rest)
    else
      let p := splitExp rest
      (c :: p.1, p.2)

/-- Mantissa of a Python float literal: `d+ | d+ . d* | . d+`. -/
def floatMantissa (l : List Char) : Bool :=
  match splitDot l with
  | (a, none) => digitPart a
  | (a, some b) =>
    (a.isEmpty && digitPart b) ||
    (digitPart a && (b.isEmpty || digitPart b))

/-- Exponent part of a Python float literal: optional sign and digits. -/
def floatExp : List Char → Bool
  | [] => false
  | c :: rest =>
    if c = '+' ∨ c = '-' then digitPart rest else digitPart (c :: rest)

/-- Numeric (non-special) body of a Python float literal. -/
def floatBody (l : List Char) : Bool :=
  match splitExp l with
  | (a, none) => floatMantissa a
  | (a, some b) => floatMantissa a && floatExp b

/-- Python `float(value)` acceptance (`_is_float`): optional surrounding
whitespace and sign, then a numeric literal or `inf`/`infinity`/`nan`
(case-insensitive). -/
def isPyFloat (l : List Char) : Bool :=
  let body := fun (s : List Char) =>
    let low := s.map Char.toLower
    low == "inf".toList || low == "infinity".toList || low == "nan".toList ||
    floatBody s
  match pyStrip l with
  | '+' :: r => body r
  | '-' :: r => body r
  | s => body s

/-- Date shape `\d{4}X\d{2}X\d{2}` with matching separators `-` or `/`
(anchored both ends, as in `_is_date`). -/
def dateShape1 : List Char → Bool
  | [a, b, c, d, x, e, f, y, g, h] =>
    a.isDigit && b.isDigit && c.isDigit && d.isDigit &&
    e.isDigit && f.isDigit && g.isDigit && h.isDigit &&
    ((x == '-' && y == '-') || (x == '/' && y == '/'))
  | _ => false

/-- Date shape `\d{2}X\d{2}X\d{4}` with matching separators `-` or `/`. -/
def dateShape2 : List Char → Bool
  | [a, b, x, c, d, y, e, f, g, h] =>
    a.isDigit && b.isDigit && c.isDigit && d.isDigit &&
    e.isDigit && f.isDigit && g.isDigit && h.isDigit &&
    ((x == '-' && y == '-') || (x == '/' && y == '/'))
  | _ => false

/-- `_is_date`: the stripped value fully matches one of the four fixed
date patterns (`YYYY-MM-DD`, `YYYY/MM/DD`, `DD-MM-YYYY`, `DD/MM/YYYY`). -/
def isDateVal (l : List Char) : Bool :=
  dateShape1 (pyStrip l) || dateShape2 (pyStrip l)

/-- Prefix `\d{2}:\d{2}:\d{2}` (rest of the string unconstrained, as the
datetime patterns are not `$`-anchored). -/
def timeShape : List Char → Bool
  | a :: b :: c :: rest =>
    match rest with
    | d :: e :: f :: g :: h :: _ =>
      a.isDigit && b.isDigit && c == ':' && d.isDigit && e.isDigit &&
      f == ':' && g.isDigit && h.isDigit
    | _ => false
  | _ => false

/-- Whitespace run (`\s+`) followed by a time-of-day prefix. -/
def wsThenTime (l : List Char) : Bool :=
  match l with
  | [] => false
  | c :: _ => isPyWs c && timeShape (l.dropWhile isPyWs)

/-- Datetime pattern `^\d{4}-\d{2}-\d{2}\s+\d{2}:\d{2}:\d{2}`. -/
def dtShape1 : List Char → Bool
  | a :: b :: c :: d :: x :: e :: f :: y :: g :: h :: rest =>
    a.isDigit && b.isDigit && c.isDigit && d.isDigit && x == '-' &&
    e.isDigit && f.isDigit && y == '-' && g.isDigit && h.isDigit &&
    wsThenTime rest
  | _ => false

/-- Datetime pattern `^\d{4}-\d{2}-\d{2}T\d{2}:\d{2}:\d{2}` (ISO). -/
def dtShape2 : List Char → Bool
  | a :: b :: c :: d :: x :: e :: f :: y :: g :: h :: t :: rest =>
    a.isDigit && b.isDigit && c.isDigit && d.isDigit && x == '-' &&
    e.isDigit && f.isDigit && y == '-' && g.isDigit && h.isDigit &&
    t == 'T' && timeShape rest
  | _ => false

/-- Datetime pattern `^\d{2}/\d{2}/\d{4}\s+\d{2}:\d{2}:\d{2}`. -/
def dtShape3 : List Char → Bool
  | a :: b :: x :: c :: d :: y :: e :: f :: g :: h :: rest =>
    a.isDigit && b.isDigit && x == '/' && c.isDigit && d.isDigit &&
    y == '/' && e.isDigit && f.isDigit && g.isDigit && h.isDigit &&
    wsThenTime rest
  | _ => false

/-- `_is_datetime`: the stripped value starts with one of the three
datetime patterns. -/
def isDatetimeVal (l : List Char) : Bool :=
  dtShape1 (pyStrip l) || dtShape2 (pyStrip l) || dtShape3 (pyStrip l)

/-- Maximum length over a list of values (`max(len(v) for v in ...)`). -/
def maxLen (vs : List (List Char)) : Nat :=
  (vs.map List.length).foldl max 0

/-- `detect_column_type` (src/data_sync/type_detection.py:8):
classify a sampled list of string values as `integer`, `float`, `date`,
`datetime`, `varchar(N)` (N = max observed length, if ≤ 255) or `text`. -/
def detect_column_type (values : List (List Char)) : String :=
  if values.isEmpty then "text"
  else
    let sample := values.take 1000
    let non_empty := sample.filter (fun v => !(pyStrip v).isEmpty)
    if non_empty.isEmpty then "text"
    else if non_empty.all isPyInt then "integer"
    else if non_empty.all isPyFloat then "float"
    else if non_empty.all isDateVal then "date"
    else if non_empty.all isDatetimeVal then "datetime"
    else
      let max_length := maxLen non_empty
      if max_length ≤ 255 then "varchar(" ++ toString max_length ++ ")"
      else "text"

/-! ## Filename-to-column extraction (src/data_sync/config.py)

`FilenameToColumn._template_to_regex` escapes all regex metacharacters
in the template (`re.escape`) and then replaces every escaped `\[name\]`
(`name` one or more word characters) by the non-greedy named group
`(?P<name>.+?)`.  The compiled pattern therefore alternates literal
character runs with lazy one-or-more wildcards.  We embed the compiled
pattern as a list of segments and give Python's `re.search` semantics
(leftmost start position, then lazy backtracking, `.` not matching a
newline) directly on that segment list. -/

/-- One segment of a compiled filename template. -/
inductive TSeg where
  | lit : List Char → TSeg
  | hole : String → TSeg
deriving DecidableEq

/-- Word characters of the regex class `\w` (ASCII fragment). -/
def isWordChar (c : Char) : Bool := c.isAlpha || c.isDigit || c == '_'

/-- Scan the text following a `[` for `\w+]`, returning the placeholder
name and the remaining text on success. -/
def scanHole (l : List Char) : Option (List Char × List Char) :=
  match l.dropWhile isWordChar with
  | ']' :: r =>
    if (l.takeWhile isWordChar).isEmpty then none
    else some (l.takeWhile isWordChar, r)
  | _ => none

/-- Prepend a literal character to a segment list, merging it into a
leading literal run when possible. -/
def consLit (c : Char) : List TSeg → List TSeg
  | TSeg.lit l :: t => TSeg.lit (c :: l) :: t
  | segs => TSeg.lit [c] :: segs

/-- Fuelled worker for `parseTemplate` (fuel bounds the number of
characters consumed; `parseTemplate` supplies the template length). -/
def parseTemplateF : Nat → List Char → List TSeg
  | 0, _ => []
  | _ + 1, [] => []
  | fuel + 1, c :: rest =>
    if c = '[' then
      match scanHole rest with
      | some (name, r) => TSeg.hole (String.mk name) :: parseTemplateF fuel r
      | none => consLit '[' (parseTemplateF fuel rest)
    else consLit c (parseTemplateF fuel rest)

/-- Compilation of a filename template into segments: each `[name]`
placeholder (leftmost-first, as in the `re.sub` of
`_template_to_regex`) becomes a `hole`, all other characters are
escaped literals. -/
def parseTemplate (l : List Char) : List TSeg := parseTemplateF l.length l

mutual

/-- Match the compiled segments against the text at the current
position: a literal must match verbatim, a hole is the lazy `.+?`;
trailing text after the final segment is unconstrained (`re.search`
does not anchor the end). Returns the named-group bindings. -/
def segsMatch : List TSeg → List Char → Option (List (String × List Char))
  | [], _ => some []
  | TSeg.lit l :: rest, s =>
    if l.isPrefixOf s then segsMatch rest (s.drop l.length) else none
  | TSeg.hole n :: rest, s => holeMatch n rest [] s
termination_by segs s => (segs.length, s.length)

/-- Lazy scan for a hole: try taking one more character (never a
newline, since `.` does not match `\n`) and matching the remaining
segments after it, preferring the shortest capture. -/
def holeMatch (n : String) (rest : List TSeg) (acc : List Char) :
    List Char → Option (List (String × List Char))
  | [] => none
  | c :: s2 =>
    if c = '\n' then none
    else
      match segsMatch rest s2 with
      | some bs => some ((n, acc ++ [c]) :: bs)
      | none => holeMatch n rest (acc ++ [c]) s2
termination_by s => (rest.length, s.length)

end

/-- Python `re.search` start-position loop: try each start position
from the left, returning the first successful match. -/
def searchSegs (segs : List TSeg) : List Char → Option (List (String × List Char))
  | [] =>
    match segsMatch segs [] with
    | some bs => some bs
    | none => none
  | c :: t =>
    match segsMatch segs (c :: t) with
    | some bs => some bs
    | none => searchSegs segs t

/-- `FilenameToColumn.extract_values_from_filename`
(src/data_sync/config.py:112) for a template-compiled pattern: run the
compiled pattern against the file's base name with `search` semantics
and return the named-group mapping, or `none` if the pattern fails. -/
def extract_values_from_filename (segs : List TSeg) (filename : List Char) :
    Option (List (String × List Char)) :=
  searchSegs segs filename

/-- Substitute concrete values for the placeholders of a compiled
template, producing the filename the template describes. -/
def substTemplate (segs : List TSeg) (σ : String → List Char) : List Char :=
  segs.foldr
    (fun sg acc =>
      match sg with
      | TSeg.lit l => l ++ acc
      | TSeg.hole n => σ n ++ acc) []

/-- Characters occurring in the literal segments of a compiled template. -/
def litChars : List TSeg → List Char
  | [] => []
  | TSeg.lit l :: rest => l ++ litChars rest
  | TSeg.hole _ :: rest => litChars rest

/-- Placeholder names of a compiled template, in order. -/
def holeNames : List TSeg → List String
  | [] => []
  | TSeg.lit _ :: rest => holeNames rest
  | TSeg.hole n :: rest => n :: holeNames rest

/-- Separation discipline on compiled segments: every placeholder is
immediately followed by a nonempty literal run (no placeholder at the
end of the template and no two adjacent placeholders). -/
def sepOk : List TSeg → Bool
  | [] => true
  | TSeg.lit _ :: rest => sepOk rest
  | TSeg.hole _ :: TSeg.lit l :: rest => !l.isEmpty && sepOk (TSeg.lit l :: rest)
  | TSeg.hole _ :: _ => false

/-- Configuration of a single filename-derived column
(src/data_sync/config.py:36). -/
structure FilenameColumnMapping where
  name : String
  db_column : String
  data_type : Option String
  use_to_delete_old_rows : Bool
deriving DecidableEq

/-- Configuration for extracting values from filenames
(src/data_sync/config.py:60): declared columns plus exactly one of a
template or a raw regex. -/
structure FilenameToColumn where
  columns : List (String × FilenameColumnMapping)
  template : Option String
  regex : Option String
deriving DecidableEq

/-- `FilenameToColumn.__init__` (src/data_sync/config.py:63): the only
constructor validation is `(template is None) == (regex is None)`,
rejecting both-supplied and neither-supplied.  (Compilation of a
syntactically invalid raw regex by `re.compile` is outside the model;
templates always compile.) -/
def mkFilenameToColumn (columns : List (String × FilenameColumnMapping))
    (template : Option String) (regex : Option String) :
    Except String FilenameToColumn :=
  if template.isNone = regex.isNone then
    Except.error "Must specify exactly one of 'template' or 'regex'"
  else Except.ok ⟨columns, template, regex⟩

/-- `FilenameToColumn.get_delete_key_columns`
(src/data_sync/config.py:138): destination names of the columns marked
`use_to_delete_old_rows`. -/
def get_delete_key_columns (f : FilenameToColumn) : List String :=
  (f.columns.map Prod.snd).filterMap
    (fun c => if c.use_to_delete_old_rows then some c.db_column else none)

/-! ## CDF variable extraction and automerge (src/data_sync/cdf_extractor.py)

The `CDFVariable` record comes from `data_sync.cdf_reader`, which is
not among the sources; it is modelled from the spec as
`(name, record_count, is_array, array_width, raw_values)`.  Likewise
`get_column_names_for_variable` is modelled from the spec: per-component
label metadata is absent here, so the fallback naming
`<variable_name>_<index>` is used.  The grouping and merging logic below
is translated from `_group_variables_by_record_count` and the automerge
branch of `extract_cdf_to_csv`, with the CSV file writing (a collaborator
concern) dropped: each merged group becomes one in-memory logical table. -/

/-- Modelled from the spec: one physical variable read from a CDF file
(`data_sync.cdf_reader.CDFVariable`, absent from the sources):
name, record count, array flag and width, and raw values in
record-major order. -/
structure CDFVariable where
  name : String
  num_records : Nat
  is_array : Bool
  array_size : Nat
  data : List (List String)
deriving DecidableEq

/-- Modelled from the spec: `get_column_names_for_variable`
(`data_sync.cdf_reader`, absent from the sources): one column per array
component named `<variable_name>_<index>` (the label-metadata
preference has no labels to use here), a single column named after the
variable otherwise. -/
def get_column_names_for_variable (v : CDFVariable) : List String :=
  if v.is_array then
    (List.range v.array_size).map (fun i => v.name ++ "_" ++ toString i)
  else [v.name]

/-- Column `i` of record-major data. -/
def colAt (data : List (List String)) (i : Nat) : List String :=
  data.map (fun row => row.getD i "")

/-- `_expand_variable_to_columns` (src/data_sync/cdf_extractor.py:73):
expand a variable into column names, value columns, and the number of
records actually extracted (`min(num_records, max_records)` under
truncation). -/
def expand_variable_to_columns (v : CDFVariable) (max_records : Option Nat) :
    List String × List (List String) × Nat :=
  let actual :=
    match max_records with
    | none => v.num_records
    | some m => min v.num_records m
  let names := get_column_names_for_variable v
  let truncated := v.data.take actual
  if v.is_array then
    (names, (List.range v.array_size).map (colAt truncated), actual)
  else
    (names, [truncated.map (fun row => row.getD 0 "")], actual)

/-- `_make_unique_column_names` worker: `seen` maps a name to the
number of times it has recurred. -/
def makeUniqueAux (seen : List (String × Nat)) : List String → List String
  | [] => []
  | n :: rest =>
    match alookup seen n with
    | none => n :: makeUniqueAux (aset seen n 0) rest
    | some k => (n ++ "_" ++ toString (k + 1)) :: makeUniqueAux (aset seen n (k + 1)) rest

/-- `_make_unique_column_names` (src/data_sync/cdf_extractor.py:29):
disambiguate duplicate column names by appending `_1`, `_2`, … in
first-seen order. -/
def make_unique_column_names (names : List String) : List String :=
  makeUniqueAux [] names

/-- One step of `_group_variables_by_record_count`'s loop body
(src/data_sync/cdf_extractor.py:52): file a variable under its record
count, starting a new group (Python dict insertion order: appended at
the end) on first sight. -/
def gStep (groups : List (Nat × List CDFVariable)) (v : CDFVariable) :
    List (Nat × List CDFVariable) :=
  match groups.lookup v.num_records with
  | none => groups ++ [(v.num_records, [v])]
  | some g => groups.map
      (fun p => if p.1 = v.num_records then (p.1, g ++ [v]) else p)

/-- `_group_variables_by_record_count` (src/data_sync/cdf_extractor.py:52):
group variables by record count, keys in first-seen order (Python dict
insertion order), each group in input order. -/
def group_variables_by_record_count (vars : List CDFVariable) :
    List (Nat × List CDFVariable) :=
  vars.foldl gStep []

/-- Insertion into a list sorted by key, descending. -/
def insertDesc (p : Nat × List CDFVariable) :
    List (Nat × List CDFVariable) → List (Nat × List CDFVariable)
  | [] => [p]
  | q :: t => if q.1 ≤ p.1 then p :: q :: t else q :: insertDesc p t

/-- `sorted(groups.items(), key=lambda x: -x[0])`: groups by record
count, descending. -/
def sortGroupsDesc (gs : List (Nat × List CDFVariable)) :
    List (Nat × List CDFVariable) :=
  gs.foldr insertDesc []

/-- One logical row-table produced by extraction. -/
structure LogicalTable where
  column_names : List String
  data_columns : List (List String)
  num_rows : Nat
  variable_names : List String
deriving DecidableEq

/-- Automerge branch of `extract_cdf_to_csv`
(src/data_sync/cdf_extractor.py:243): group variables by record count,
skip groups whose record count is below 2, and merge each remaining
group into one logical table — concatenated expanded columns, made
unique, with the minimum per-variable actually-extracted record count
as the row count.  File naming/writing is a collaborator concern and is
not modelled. -/
def automergeTables (vars : List CDFVariable) (max_records : Option Nat) :
    List LogicalTable :=
  let groups := sortGroupsDesc (group_variables_by_record_count vars)
  (groups.filter (fun g => 2 ≤ g.1)).map
    (fun g =>
      let expanded := g.2.map (fun v => expand_variable_to_columns v max_records)
      let all_column_names := expanded.flatMap (fun e => e.1)
      let all_data_columns := expanded.flatMap (fun e => e.2.1)
      let actual_records_list := expanded.map (fun e => e.2.2)
      let actual_record_count :=
        match actual_records_list with
        | [] => 0
        | a :: t => t.foldl min a
      { column_names := make_unique_column_names all_column_names,
        data_columns := all_data_columns,
        num_rows := actual_record_count,
        variable_names := g.2.map (fun v => v.name) })

/-- Expanded width of a variable: array width for array variables, one
column otherwise. -/
def expandedWidth (v : CDFVariable) : Nat :=
  if v.is_array then v.array_size else 1

/-! ## Database backend (src/data_sync/database.py)

The SQLite backend is embedded (the PostgreSQL backend issues
statements with identical external semantics — same upsert conflict
handling, same `SET` list, same stale-delete predicate — per
§4.4 of the spec).  A table is its schema (ordered column/type pairs),
its primary-key column list and rows; the SQL statements the backend
builds are modelled by their documented effect on this state. -/

/-- `SQLiteBackend.map_data_type` (src/data_sync/database.py:270). -/
def map_data_type (data_type : Option String) : String :=
  match data_type with
  | none => "TEXT"
  | some dt =>
    let l := dt.toLower.trim
    if l.startsWith "varchar" then "TEXT"
    else if l = "integer" then "INTEGER"
    else if l = "int" then "INTEGER"
    else if l = "float" then "REAL"
    else if l = "double" then "REAL"
    else if l = "date" then "TEXT"
    else if l = "datetime" then "TEXT"
    else if l = "timestamp" then "TEXT"
    else if l = "text" then "TEXT"
    else if l = "string" then "TEXT"
    else "TEXT"

/-- Database table state: schema (column name/type pairs in creation
order), primary-key columns, rows. -/
structure Table where
  schema : List (String × String)
  primary_keys : List String
  rows : List Row
deriving DecidableEq

/-- `create_table_if_not_exists` (src/data_sync/database.py:296): a
no-op when the table exists, otherwise creates an empty table with the
given columns and `PRIMARY KEY` constraint. -/
def create_table_if_not_exists (st : Option Table)
    (columns : List (String × String)) (primary_keys : List String) : Table :=
  match st with
  | some t => t
  | none => { schema := columns, primary_keys := primary_keys, rows := [] }

/-- Python `str.lower` as used on column names: per-character
lowering. -/
def pyLower (s : String) : String := String.mk (s.data.map Char.toLower)

/-- `get_existing_columns` (src/data_sync/database.py:313): lowercased
column names from `PRAGMA table_info` (empty for a missing table). -/
def get_existing_columns (st : Option Table) : List String :=
  match st with
  | some t => (t.schema.map Prod.fst).map pyLower
  | none => []

/-- `add_column` (src/data_sync/database.py:320): `ALTER TABLE ADD
COLUMN` appends a new column; existing rows read `NULL` in it (absent
key in the row model). -/
def add_column (t : Table) (column_name column_type : String) : Table :=
  { t with schema := t.schema ++ [(column_name, column_type)] }

/-- Columns of the `DO UPDATE SET` list built by `upsert_row`
(src/data_sync/database.py:335): the inserted columns excluding the
conflict columns. -/
def updateSetColumns (columns : List String) (conflict_columns : List String) :
    List String :=
  columns.filter (fun c => decide (c ∉ conflict_columns))

/-- Column assignments the `DO UPDATE SET` clause performs: the row's
entries restricted to non-conflict columns. -/
def wrWrites (conflict_columns : List String) (u : Row) : List (String × String) :=
  u.filter (fun p => decide (p.1 ∉ conflict_columns))

/-- Does row `r` conflict with inserted row `u` on the conflict
columns?  Both must hold equal non-`NULL` values on every conflict
column (SQL `NULL` never equals `NULL`). -/
def rmatches (conflict_columns : List String) (u r : Row) : Bool :=
  conflict_columns.all
    (fun c =>
      match alookup u c, alookup r c with
      | some a, some b => decide (a = b)
      | _, _ => false)

/-- Index of the first row conflicting with `u`. -/
def firstIdx (conflict_columns : List String) (u : Row) : List Row → Option Nat
  | [] => none
  | r :: t =>
    if rmatches conflict_columns u r then some 0
    else (firstIdx conflict_columns u t).map (· + 1)

/-- Effect of the `DO UPDATE SET` clause on the conflicting row. -/
def applyUpd (conflict_columns : List String) (r u : Row) : Row :=
  rowApply r (wrWrites conflict_columns u)

/-- `upsert_row` (src/data_sync/database.py:326): `INSERT ... ON
CONFLICT (conflict_columns) DO UPDATE SET ...` — update the conflicting
row on the non-conflict columns if one exists, otherwise insert. -/
def upsert1 (conflict_columns : List String) (X : List Row) (u : Row) : List Row :=
  match firstIdx conflict_columns u X with
  | some i => X.set i (applyUpd conflict_columns (X.getD i []) u)
  | none => X ++ [u]

/-- `upsert_row` as a table operation. -/
def upsert_row (t : Table) (conflict_columns : List String) (row_data : Row) : Table :=
  { t with rows := upsert1 conflict_columns t.rows row_data }

/-- Fold of `upsert_row` over a batch of rows, as the per-row loop of
`sync_csv_file` performs. -/
def batchUpsert (conflict_columns : List String) (X : List Row) (B : List Row) :
    List Row :=
  B.foldl (upsert1 conflict_columns) X

/-- Writes of a batch routed to position `i` of the base state `X`:
the concatenated `DO UPDATE SET` assignments of the batch rows whose
first conflicting row in `X` sits at index `i` (used to characterise
`batchUpsert` row by row). -/
def routedTo (conflict_columns : List String) (X : List Row) (B : List Row)
    (i : Nat) : List (String × String) :=
  (B.filter (fun u => decide (firstIdx conflict_columns u X = some i))).flatMap
    (wrWrites conflict_columns)

/-- Predicate of the stale-delete statement `WHERE date_column = ? AND
id_column NOT IN (...)` under SQL `NULL` semantics (a `NULL` scope or
id never satisfies the predicate). -/
def staleB (id_column date_column sync_date : String) (current_ids : List String)
    (r : Row) : Bool :=
  (alookup r date_column == some sync_date) &&
    (match alookup r id_column with
     | some v => decide (v ∉ current_ids)
     | none => false)

/-- `delete_stale_records` (src/data_sync/database.py:348): a no-op
returning 0 when `current_ids` is empty; otherwise counts then deletes
the rows matching the stale predicate, returning the count. -/
def delete_stale_records (t : Table) (id_column date_column sync_date : String)
    (current_ids : List String) : Table × Nat :=
  if current_ids.isEmpty then (t, 0)
  else
    let keep := fun r => !staleB id_column date_column sync_date current_ids r
    let deleted := t.rows.filter (staleB id_column date_column sync_date current_ids)
    ({ t with rows := t.rows.filter keep }, deleted.length)

/-! ## Sync orchestrator (src/data_sync/database.py:451)

`DatabaseConnection.sync_csv_file` as in the sources: it addresses a
single `id_mapping` column mapping and an optional `date_mapping`
(the sources' `config.py` declares a newer list-valued `id_mapping`;
the orchestrator in `database.py` uses the single-mapping shape below).
The CSV (already parsed by `csv.DictReader`, a collaborator) is a
header list plus rows keyed by header.  Python iterates the
`set(reader.fieldnames)` when mirroring all columns; the model uses
header order (only the iteration order of that set differs, which no
claim observes). -/

/-- Mapping between a CSV column and a database column
(src/data_sync/config.py:12). -/
structure ColumnMapping where
  csv_column : String
  db_column : String
  data_type : Option String
deriving DecidableEq

/-- Date mapping as consumed by `sync_csv_file` (`job.date_mapping`):
the destination column receiving the sync date. -/
structure DateMapping where
  db_column : String
deriving DecidableEq

/-- Sync job configuration in the shape `sync_csv_file` consumes. -/
structure SyncJob where
  target_table : String
  id_mapping : ColumnMapping
  columns : List ColumnMapping
  date_mapping : Option DateMapping
deriving DecidableEq

/-- Parsed CSV file: header and rows keyed by header. -/
structure Csv where
  headers : List String
  rows : List Row
deriving DecidableEq

/-- `csv.DictReader` wellformedness: every row has exactly the header
fields, in header order. -/
def WFCsv (csv : Csv) : Prop := ∀ r ∈ csv.rows, akeys r = csv.headers

/-- Wellformed table state: each row mentions a column at most once. -/
def WFTable (st : Option Table) : Prop :=
  ∀ t, st = some t → ∀ r ∈ t.rows, NoDupKeys r

/-- Column-selection and validation phase of `sync_csv_file`
(src/data_sync/database.py:475): reject an empty header or a missing id
column; with explicit job columns reject the first missing one and sync
`[id_mapping] + columns`, otherwise mirror all header columns. -/
def buildSyncColumns (headers : List String) (job : SyncJob) :
    Except String (List ColumnMapping) :=
  if headers.isEmpty then Except.error "CSV file has no columns"
  else if ¬ job.id_mapping.csv_column ∈ headers then
    Except.error ("ID column '" ++ job.id_mapping.csv_column ++ "' not found in CSV")
  else if job.columns.isEmpty then
    Except.ok (job.id_mapping ::
      (headers.filter (fun c => c ≠ job.id_mapping.csv_column)).map
        (fun c => ⟨c, c, none⟩))
  else
    match job.columns.find? (fun cm => ¬ cm.csv_column ∈ headers) with
    | some cm => Except.error ("Column '" ++ cm.csv_column ++ "' not found in CSV")
    | none => Except.ok (job.id_mapping :: job.columns)

/-- Column definitions of the target table
(src/data_sync/database.py:498): destination columns typed via
`map_data_type`, plus the date column as `TEXT` when configured. -/
def buildColumnsDef (syncCols : List ColumnMapping) (job : SyncJob) :
    List (String × String) :=
  let base := syncCols.foldl
    (fun acc cm => aset acc cm.db_column (map_data_type cm.data_type)) []
  match job.date_mapping with
  | some dm => aset base dm.db_column "TEXT"
  | none => base

/-- Schema phase of `sync_csv_file` (src/data_sync/database.py:507):
create the table if absent with the primary key on the id column, then
add every definition column whose lowercased name is absent from the
existing columns. -/
def schemaPhase (st : Option Table) (job : SyncJob)
    (columnsDef : List (String × String)) : Table :=
  let t1 := create_table_if_not_exists st columnsDef [job.id_mapping.db_column]
  let existing := get_existing_columns (some t1)
  columnsDef.foldl
    (fun t p => if pyLower p.1 ∈ existing then t else add_column t p.1 p.2) t1

/-- Per-row data assembly (src/data_sync/database.py:520): destination
values from the CSV row for each sync column present, plus the sync
date when configured. -/
def buildRowData (syncCols : List ColumnMapping) (job : SyncJob)
    (sync_date : Option String) (row : Row) : Row :=
  let rd := syncCols.foldl
    (fun acc cm =>
      match alookup row cm.csv_column with
      | some v => aset acc cm.db_column v
      | none => acc) []
  match job.date_mapping, sync_date with
  | some dm, some d => aset rd dm.db_column d
  | _, _ => rd

/-- Row loop of `sync_csv_file` minus the database writes: build the
upsert payload for each CSV row and collect the synced id values (a
missing id value would be a Python `KeyError`). -/
def processRows (syncCols : List ColumnMapping) (job : SyncJob)
    (sync_date : Option String) : List Row → Except String (List Row × List String)
  | [] => Except.ok ([], [])
  | row :: rest =>
    let rd := buildRowData syncCols job sync_date row
    match alookup rd job.id_mapping.db_column with
    | none => Except.error "KeyError: id column missing from row data"
    | some v =>
      match processRows syncCols job sync_date rest with
      | Except.error e => Except.error e
      | Except.ok (datas, ids) => Except.ok (rd :: datas, v :: ids)

/-- `DatabaseConnection.sync_csv_file` (src/data_sync/database.py:451):
validate, ensure table and schema, upsert every CSV row keyed on the id
column, then delete stale records under the sync date scope when
configured.  Returns the final table state, the number of rows synced,
and the number of stale rows deleted. -/
def syncCsvFile (csv : Csv) (job : SyncJob) (sync_date : Option String)
    (st : Option Table) : Except String (Option Table × Nat × Nat) :=
  match buildSyncColumns csv.headers job with
  | Except.error e => Except.error e
  | Except.ok syncCols =>
    let columnsDef := buildColumnsDef syncCols job
    let t1 := schemaPhase st job columnsDef
    match processRows syncCols job sync_date csv.rows with
    | Except.error e => Except.error e
    | Except.ok (datas, ids) =>
      let t2 := { t1 with
        rows := batchUpsert [job.id_mapping.db_column] t1.rows datas }
      match job.date_mapping, sync_date with
      | some dm, some d =>
        let r := delete_stale_records t2 job.id_mapping.db_column dm.db_column d ids
        Except.ok (some r.1, datas.length, r.2)
      | _, _ => Except.ok (some t2, datas.length, 0)

/-- Result of a dry run (`DryRunSummary`): a pure computation, never a
state transition. -/
structure DryRunSummary where
  table_name : String
  table_exists : Bool
  rows_to_sync : Nat
  rows_to_delete : Nat
  new_columns : List (String × String)
deriving DecidableEq

/-- Modelled from the spec: `syncDryRun`
(`sync_csv_to_postgres_dry_run` / `DryRunSummary`, declared in
`data_sync/__init__.py` and exercised by `tests/test_dry_run.py` but
absent from the sources).  It performs the same validation,
schema-diff and row-reconciliation logic as `sync_csv_file` but
computes rather than applies every write: it reports whether the table
exists, which columns would be added, how many rows would be upserted,
and how many current rows the stale-delete predicate
(`scope = sync_date AND id NOT IN current_ids`) would delete. -/
def syncDryRun (csv : Csv) (job : SyncJob) (sync_date : Option String)
    (st : Option Table) : Except String DryRunSummary :=
  match buildSyncColumns csv.headers job with
  | Except.error e => Except.error e
  | Except.ok syncCols =>
    let columnsDef := buildColumnsDef syncCols job
    let existing := get_existing_columns st
    let newCols :=
      if st.isSome then
        columnsDef.filter (fun p => decide (¬ pyLower p.1 ∈ existing))
      else []
    match processRows syncCols job sync_date csv.rows with
    | Except.error e => Except.error e
    | Except.ok (datas, ids) =>
      let toDelete :=
        match st, job.date_mapping, sync_date with
        | some t, some dm, some d =>
          if ids.isEmpty then 0
          else (t.rows.filter
            (staleB job.id_mapping.db_column dm.db_column d ids)).length
        | _, _, _ => 0
      Except.ok
        { table_name := job.target_table, table_exists := st.isSome,
          rows_to_sync := datas.length, rows_to_delete := toDelete,
          new_columns := newCols }

/-- Modelled from the spec: the table-creation step of the current
compound-key orchestrator (the `sync_csv_file` in `database.py` is an
older revision addressing a single id mapping; the compound-key
orchestrator exercised by `tests/test_database_integration.py` is not
among the sources).  Per §4.4/§3 of the spec, when the table does not
yet exist it is created with the primary key as exactly the
`IdentityMapping` destination columns, every destination column —
including any filename-derived scope column — appearing as a regular
schema column. -/
def compound_create_table (st : Option Table) (id_mapping : List ColumnMapping)
    (columnsDef : List (String × String)) : Table :=
  create_table_if_not_exists st columnsDef (id_mapping.map (fun cm => cm.db_column))

/-! ## Lemmas: association lists -/

theorem alookup_aset_self {β : Type} (r : List (String × β)) (c : String) (v : β) :
    alookup (aset r c v) c = some v := by
  induction r with
  | nil => simp [aset, alookup]
  | cons p t ih =>
    by_cases h : p.1 = c
    · simp [aset, h, alookup]
    · simp [aset, h, alookup, ih]

theorem alookup_aset_ne {β : Type} (r : List (String × β)) (c c' : String) (v : β)
    (h : c' ≠ c) : alookup (aset r c v) c' = alookup r c' := by
  induction r with
  | nil =>
    simp only [aset, alookup]
    rw [if_neg (fun h2 => h (Eq.symm h2))]
  | cons p t ih =>
    by_cases hp : p.1 = c
    · subst hp
      simp only [aset, if_pos rfl, alookup]
      rw [if_neg (fun h2 => h (Eq.symm h2)), if_neg (fun h2 => h (Eq.symm h2))]
    · simp only [aset, if_neg hp, alookup]
      by_cases hc : p.1 = c'
      · simp [hc]
      · simp [hc, ih]

theorem akeys_aset_mem {β : Type} (r : List (String × β)) (c : String) (v : β)
    (h : c ∈ akeys r) : akeys (aset r c v) = akeys r := by
  induction r with
  | nil => simp [akeys] at h
  | cons p t ih =>
    by_cases hp : p.1 = c
    · simp [aset, hp, akeys]
    · have h2 : c ∈ akeys t := by
        rcases List.mem_map.1 h with ⟨q, hq, he⟩
        rcases List.mem_cons.1 hq with h3 | h3
        · exact absurd (h3 ▸ he) hp
        · exact List.mem_map.2 ⟨q, h3, he⟩
      simp [aset, hp, akeys, ih h2]
      simpa [akeys] using ih h2

theorem akeys_aset_not_mem {β : Type} (r : List (String × β)) (c : String) (v : β)
    (h : c ∉ akeys r) : akeys (aset r c v) = akeys r ++ [c] := by
  induction r with
  | nil => simp [aset, akeys]
  | cons p t ih =>
    have hp : p.1 ≠ c := fun h2 => h (by simp [akeys, h2])
    have h2 : c ∉ akeys t := fun h2 => h (by simp [akeys]; right; simpa [akeys] using h2)
    simp only [aset, if_neg hp, akeys, List.map_cons]
    simpa [akeys] using ih h2

theorem NoDupKeys_aset {β : Type} (r : List (String × β)) (c : String) (v : β)
    (h : NoDupKeys r) : NoDupKeys (aset r c v) := by
  by_cases hm : c ∈ akeys r
  · unfold NoDupKeys
    rw [akeys_aset_mem r c v hm]
    exact h
  · unfold NoDupKeys
    rw [akeys_aset_not_mem r c v hm]
    simpa [List.nodup_append] using ⟨h, hm⟩

theorem alookup_none_iff {β : Type} (r : List (String × β)) (c : String) :
    alookup r c = none ↔ c ∉ akeys r := by
  induction r with
  | nil => simp [alookup, akeys]
  | cons p t ih =>
    by_cases hp : p.1 = c
    · simp [alookup, hp, akeys]
    · rw [show alookup (p :: t) c = alookup t c by
        simp only [alookup]; rw [if_neg hp]]
      rw [ih]
      unfold akeys
      simp only [List.map_cons, List.mem_cons]
      constructor
      · rintro h (h2 | h2)
        · exact hp h2.symm
        · exact h h2
      · intro h h2
        exact h (Or.inr h2)

theorem alookup_isSome_of_mem {β : Type} (r : List (String × β)) (c : String)
    (h : c ∈ akeys r) : (alookup r c).isSome := by
  rcases h2 : alookup r c with _ | v
  · exact absurd ((alookup_none_iff r c).1 h2) (by simpa using h)
  · simp

theorem mem_akeys_of_alookup {β : Type} (r : List (String × β)) (c : String) (v : β)
    (h : alookup r c = some v) : c ∈ akeys r := by
  by_contra hm
  rw [(alookup_none_iff r c).2 hm] at h
  cases h

/-- Two wellformed association lists with the same key order and the
same lookups are equal. -/
theorem alist_ext {β : Type} (r1 r2 : List (String × β)) (h1 : NoDupKeys r1)
    (hk : akeys r1 = akeys r2) (hl : ∀ c, alookup r1 c = alookup r2 c) :
    r1 = r2 := by
  induction r1 generalizing r2 with
  | nil =>
    cases r2 with
    | nil => rfl
    | cons q t2 => simp [akeys] at hk
  | cons p t1 ih =>
    cases r2 with
    | nil => simp [akeys] at hk
    | cons q t2 =>
      simp only [akeys, List.map_cons, List.cons.injEq] at hk
      obtain ⟨hkey, hkt⟩ := hk
      have hv : p.2 = q.2 := by
        have h3 := hl p.1
        have e1 : alookup (p :: t1) p.1 = some p.2 := by simp [alookup]
        have e2 : alookup (q :: t2) p.1 = some q.2 := by
          simp only [alookup]
          rw [if_pos hkey.symm]
        rw [e1, e2] at h3
        exact Option.some.inj h3
      have hnd : NoDupKeys t1 := by
        have := List.nodup_cons.1 (show (p.1 :: akeys t1).Nodup from h1)
        exact this.2
      have hnm : p.1 ∉ akeys t1 := by
        have := List.nodup_cons.1 (show (p.1 :: akeys t1).Nodup from h1)
        exact this.1
      have htl : ∀ c, alookup t1 c = alookup t2 c := by
        intro c
        by_cases hc : c = p.1
        · subst hc
          rw [(alookup_none_iff t1 p.1).2 hnm,
            (alookup_none_iff t2 p.1).2 (by unfold akeys at hnm ⊢; rw [← hkt]; exact hnm)]
        · have h3 := hl c
          have e1 : alookup (p :: t1) c = alookup t1 c := by
            simp only [alookup]
            rw [if_neg (fun h => hc (Eq.symm h))]
          have e2 : alookup (q :: t2) c = alookup t2 c := by
            simp only [alookup]
            rw [if_neg (fun h => hc (Eq.symm (hkey.trans h)))]
          rw [e1, e2] at h3
          exact h3
      have := ih t2 hnd hkt htl
      calc p :: t1 = (p.1, p.2) :: t1 := rfl
        _ = (q.1, q.2) :: t2 := by rw [hkey, hv, this]
        _ = q :: t2 := rfl

/-! ## Lemmas: sequences of column assignments -/

theorem rowApply_nil (r : Row) : rowApply r [] = r := rfl

theorem rowApply_cons (r : Row) (p : String × String) (W : List (String × String)) :
    rowApply r (p :: W) = rowApply (aset r p.1 p.2) W := rfl

theorem rowApply_append (r : Row) (V W : List (String × String)) :
    rowApply r (V ++ W) = rowApply (rowApply r V) W := by
  unfold rowApply
  exact List.foldl_append _ _ _ _

theorem alookup_rowApply_not_mem (r : Row) (W : List (String × String)) (c : String)
    (h : c ∉ akeys W) : alookup (rowApply r W) c = alookup r c := by
  induction W generalizing r with
  | nil => rfl
  | cons p t ih =>
    have hp : c ≠ p.1 := by
      intro h2
      exact h (show c ∈ p.1 :: akeys t from List.mem_cons.2 (Or.inl h2))
    have ht : c ∉ akeys t := by
      intro h2
      exact h (show c ∈ p.1 :: akeys t from List.mem_cons.2 (Or.inr h2))
    rw [rowApply_cons, ih _ ht, alookup_aset_ne _ _ _ _ hp]

theorem alookup_append {β : Type} (xs ys : List (String × β)) (c : String) :
    alookup (xs ++ ys) c =
      match alookup xs c with
      | some v => some v
      | none => alookup ys c := by
  induction xs with
  | nil => simp [alookup]
  | cons p t ih =>
    by_cases hp : p.1 = c
    · simp [alookup, hp]
    · simp only [List.cons_append, alookup, if_neg hp]
      exact ih

theorem akeys_append {β : Type} (xs ys : List (String × β)) :
    akeys (xs ++ ys) = akeys xs ++ akeys ys := by
  unfold akeys
  simp

theorem akeys_reverse {β : Type} (xs : List (String × β)) :
    akeys xs.reverse = (akeys xs).reverse := by
  unfold akeys
  simp

theorem alookup_rowApply_mem (r : Row) (W : List (String × String)) (c : String)
    (h : c ∈ akeys W) : alookup (rowApply r W) c = alookup W.reverse c := by
  induction W using List.reverseRecOn generalizing r with
  | nil => simp [akeys] at h
  | append_singleton t p ih =>
    rw [rowApply_append, List.reverse_append, List.reverse_singleton, List.singleton_append]
    rw [show rowApply (rowApply r t) [p] = aset (rowApply r t) p.1 p.2 from rfl]
    by_cases hp : c = p.1
    · subst hp
      rw [alookup_aset_self]
      simp [alookup]
    · have hc : c ∈ akeys t := by
        rw [akeys_append] at h
        rcases List.mem_append.1 h with h2 | h2
        · exact h2
        · exact absurd (by simpa [akeys] using h2) hp
      rw [alookup_aset_ne _ _ _ _ hp, ih _ hc]
      simp only [alookup]
      rw [if_neg (fun h2 => hp (Eq.symm h2))]

theorem mem_akeys_aset {β : Type} (r : List (String × β)) (c x : String) (v : β)
    (h : x ∈ akeys r) : x ∈ akeys (aset r c v) := by
  by_cases hm : c ∈ akeys r
  · rw [akeys_aset_mem _ _ _ hm]; exact h
  · rw [akeys_aset_not_mem _ _ _ hm]; exact List.mem_append.2 (Or.inl h)

theorem self_mem_akeys_aset {β : Type} (r : List (String × β)) (c : String) (v : β) :
    c ∈ akeys (aset r c v) := by
  by_cases hm : c ∈ akeys r
  · rw [akeys_aset_mem _ _ _ hm]; exact hm
  · rw [akeys_aset_not_mem _ _ _ hm]; simp

theorem akeys_sub_rowApply (r : Row) (W : List (String × String)) :
    ∀ x ∈ akeys r, x ∈ akeys (rowApply r W) := by
  induction W generalizing r with
  | nil => intro x hx; exact hx
  | cons p t ih =>
    intro x hx
    rw [rowApply_cons]
    exact ih _ x (mem_akeys_aset _ _ _ _ hx)

theorem akeysW_sub_rowApply (r : Row) (W : List (String × String)) :
    ∀ x ∈ akeys W, x ∈ akeys (rowApply r W) := by
  induction W generalizing r with
  | nil => intro x hx; cases hx
  | cons p t ih =>
    intro x hx
    rw [rowApply_cons]
    unfold akeys at hx
    rcases List.mem_cons.1 hx with h2 | h2
    · exact akeys_sub_rowApply _ _ x (h2 ▸ self_mem_akeys_aset r p.1 p.2)
    · exact ih _ x h2

theorem akeys_rowApply_of_sub (r : Row) (W : List (String × String))
    (h : ∀ x ∈ akeys W, x ∈ akeys r) : akeys (rowApply r W) = akeys r := by
  induction W generalizing r with
  | nil => rfl
  | cons p t ih =>
    rw [rowApply_cons]
    have hp : p.1 ∈ akeys r := h p.1 (show p.1 ∈ p.1 :: akeys t from List.mem_cons.2 (Or.inl rfl))
    rw [ih _ (fun x hx => mem_akeys_aset _ _ _ _
      (h x (show x ∈ p.1 :: akeys t from List.mem_cons.2 (Or.inr hx))))]
    exact akeys_aset_mem _ _ _ hp

theorem NoDupKeys_rowApply (r : Row) (W : List (String × String))
    (h : NoDupKeys r) : NoDupKeys (rowApply r W) := by
  induction W generalizing r with
  | nil => exact h
  | cons p t ih => exact ih _ (NoDupKeys_aset _ _ _ h)

theorem alookup_reverse_of_nodup {β : Type} (l : List (String × β)) (c : String)
    (h : NoDupKeys l) : alookup l.reverse c = alookup l c := by
  induction l with
  | nil => rfl
  | cons p t ih =>
    have hnm : p.1 ∉ akeys t := (List.nodup_cons.1 (show (p.1 :: akeys t).Nodup from h)).1
    have hnd : NoDupKeys t := (List.nodup_cons.1 (show (p.1 :: akeys t).Nodup from h)).2
    rw [List.reverse_cons, alookup_append]
    by_cases hp : p.1 = c
    · subst hp
      have : alookup t.reverse p.1 = none := by
        rw [alookup_none_iff, akeys_reverse]
        simpa using hnm
      rw [this]
      simp [alookup]
    · rw [ih hnd]
      have e2 : alookup (p :: t) c = alookup t c := by
        simp only [alookup]
        rw [if_neg hp]
      rw [e2]
      rcases h2 : alookup t c with _ | v <;> simp [alookup, hp]

/-- Absorption of a replayed write prefix: if `b` already holds the
final value of every `V`-key not overwritten later by `W`, then
replaying `V ++ W` on top of `rowApply b W` is a no-op. -/
theorem rowApply_absorb (b : Row) (V W : List (String × String))
    (hb : NoDupKeys b) (hV : ∀ x ∈ akeys V, x ∈ akeys b)
    (hlook : ∀ c ∈ akeys V, c ∉ akeys W → alookup b c = alookup V.reverse c) :
    rowApply (rowApply b W) (V ++ W) = rowApply b W := by
  have hndρ : NoDupKeys (rowApply b W) := NoDupKeys_rowApply _ _ hb
  apply alist_ext _ _ (NoDupKeys_rowApply _ _ hndρ)
  · apply akeys_rowApply_of_sub
    intro x hx
    rw [akeys_append] at hx
    rcases List.mem_append.1 hx with h2 | h2
    · exact akeys_sub_rowApply _ _ x (hV x h2)
    · exact akeysW_sub_rowApply _ _ x h2
  · intro c
    rw [rowApply_append]
    by_cases hw : c ∈ akeys W
    · rw [alookup_rowApply_mem (rowApply (rowApply b W) V) W c hw,
        alookup_rowApply_mem b W c hw]
    · rw [alookup_rowApply_not_mem (rowApply (rowApply b W) V) W c hw]
      by_cases hv : c ∈ akeys V
      · rw [alookup_rowApply_mem (rowApply b W) V c hv,
          alookup_rowApply_not_mem b W c hw]
        exact (hlook c hv hw).symm
      · rw [alookup_rowApply_not_mem (rowApply b W) V c hv]

/-! ## Lemmas: upsert semantics -/

theorem getD_set_self {α : Type} (X : List α) (i : Nat) (a d : α) (h : i < X.length) :
    (X.set i a).getD i d = a := by
  induction X generalizing i with
  | nil => cases h
  | cons x t ih =>
    cases i with
    | zero => rfl
    | succ j => exact ih j (Nat.lt_of_succ_lt_succ h)

theorem getD_set_ne {α : Type} (X : List α) (i j : Nat) (a d : α) (h : i ≠ j) :
    (X.set i a).getD j d = X.getD j d := by
  induction X generalizing i j with
  | nil => rfl
  | cons x t ih =>
    cases i with
    | zero =>
      cases j with
      | zero => exact absurd rfl h
      | succ k => rfl
    | succ i2 =>
      cases j with
      | zero => rfl
      | succ k => exact ih i2 k (fun h2 => h (by rw [h2]))

theorem getD_append_left {α : Type} (X Y : List α) (i : Nat) (d : α) (h : i < X.length) :
    (X ++ Y).getD i d = X.getD i d := by
  simp [List.getD_eq_getElem?_getD, List.getElem?_append_left h]

theorem mem_set_self {α : Type} (X : List α) (i : Nat) (a : α) (h : i < X.length) :
    a ∈ X.set i a := by
  induction X generalizing i with
  | nil => cases h
  | cons x t ih =>
    cases i with
    | zero => simp
    | succ j => exact List.mem_cons.2 (Or.inr (ih j (Nat.lt_of_succ_lt_succ h)))

theorem mem_of_mem_set {α : Type} (X : List α) (i : Nat) (a r : α)
    (h : r ∈ X.set i a) : r = a ∨ r ∈ X := by
  induction X generalizing i with
  | nil => cases h
  | cons x t ih =>
    cases i with
    | zero =>
      rcases List.mem_cons.1 h with h2 | h2
      · exact Or.inl h2
      · exact Or.inr (List.mem_cons.2 (Or.inr h2))
    | succ j =>
      rcases List.mem_cons.1 h with h2 | h2
      · exact Or.inr (List.mem_cons.2 (Or.inl h2))
      · rcases ih j h2 with h3 | h3
        · exact Or.inl h3
        · exact Or.inr (List.mem_cons.2 (Or.inr h3))

theorem akeys_wrWrites_not_pk (pk : List String) (u : Row) (c : String)
    (h : c ∈ akeys (wrWrites pk u)) : c ∉ pk := by
  unfold akeys wrWrites at h
  rcases List.mem_map.1 h with ⟨p, hp, he⟩
  have := List.of_mem_filter hp
  subst he
  simpa using this

theorem alookup_wrWrites (pk : List String) (u : Row) (c : String) (h : c ∉ pk) :
    alookup (wrWrites pk u) c = alookup u c := by
  induction u with
  | nil => rfl
  | cons p t ih =>
    by_cases hpk : p.1 ∈ pk
    · have hne : p.1 ≠ c := fun h2 => h (h2 ▸ hpk)
      rw [show wrWrites pk (p :: t) = wrWrites pk t by
        unfold wrWrites; simp [List.filter_cons, hpk]]
      rw [ih]
      simp only [alookup]
      rw [if_neg hne]
    · rw [show wrWrites pk (p :: t) = p :: wrWrites pk t by
        unfold wrWrites; simp [List.filter_cons, hpk]]
      by_cases hc : p.1 = c
      · simp [alookup, hc]
      · simp only [alookup, if_neg hc]
        exact ih

theorem sublist_akeys_wrWrites (pk : List String) (u : Row) :
    (akeys (wrWrites pk u)).Sublist (akeys u) := by
  unfold akeys wrWrites
  exact List.Sublist.map Prod.fst (List.filter_sublist u)

theorem NoDupKeys_wrWrites (pk : List String) (u : Row) (h : NoDupKeys u) :
    NoDupKeys (wrWrites pk u) :=
  List.Nodup.sublist (sublist_akeys_wrWrites pk u) h

theorem alookup_applyUpd_pk (pk : List String) (r u : Row) (c : String) (h : c ∈ pk) :
    alookup (applyUpd pk r u) c = alookup r c := by
  unfold applyUpd
  exact alookup_rowApply_not_mem _ _ _ (fun h2 => akeys_wrWrites_not_pk pk u c h2 h)

theorem all_congr_bool {α : Type} (l : List α) (f g : α → Bool)
    (h : ∀ x ∈ l, f x = g x) : l.all f = l.all g := by
  induction l with
  | nil => rfl
  | cons x t ih =>
    simp only [List.all_cons, h x (List.mem_cons.2 (Or.inl rfl)),
      ih (fun y hy => h y (List.mem_cons.2 (Or.inr hy)))]

theorem rmatches_applyUpd (pk : List String) (v r u : Row) :
    rmatches pk v (applyUpd pk r u) = rmatches pk v r := by
  unfold rmatches
  apply all_congr_bool
  intro c hc
  rw [alookup_applyUpd_pk pk r u c hc]

theorem rmatches_self (pk : List String) (u : Row)
    (h : ∀ c ∈ pk, (alookup u c).isSome) : rmatches pk u u = true := by
  unfold rmatches
  apply List.all_eq_true.2
  intro c hc
  rcases h2 : alookup u c with _ | v
  · exfalso
    have h3 := h c hc
    rw [h2] at h3
    simp at h3
  · simp

theorem pk_lookup_of_rmatches (pk : List String) (v ρ : Row) (c : String)
    (hc : c ∈ pk) (h : rmatches pk v ρ = true) :
    ∃ a, alookup v c = some a ∧ alookup ρ c = some a := by
  unfold rmatches at h
  have := List.all_eq_true.1 h c hc
  rcases h1 : alookup v c with _ | a <;> rcases h2 : alookup ρ c with _ | b <;>
    rw [h1, h2] at this <;> simp at this
  exact ⟨a, rfl, by rw [this]⟩

theorem rmatches_congr (pk : List String) (v u : Row)
    (h : ∀ c ∈ pk, alookup v c = alookup u c) (r : Row) :
    rmatches pk v r = rmatches pk u r := by
  unfold rmatches
  apply all_congr_bool
  intro c hc
  rw [h c hc]

theorem rmatches_eq_of_both_match (pk : List String) (v u ρ : Row)
    (hv : rmatches pk v ρ = true) (hu : rmatches pk u ρ = true) (r : Row) :
    rmatches pk v r = rmatches pk u r := by
  apply rmatches_congr
  intro c hc
  rcases pk_lookup_of_rmatches pk v ρ c hc hv with ⟨a, ha1, ha2⟩
  rcases pk_lookup_of_rmatches pk u ρ c hc hu with ⟨b, hb1, hb2⟩
  rw [ha1, hb1, ha2.symm.trans hb2]

theorem firstIdx_lt (pk : List String) (u : Row) (X : List Row) (i : Nat)
    (h : firstIdx pk u X = some i) : i < X.length := by
  induction X generalizing i with
  | nil => cases h
  | cons r t ih =>
    unfold firstIdx at h
    by_cases hm : rmatches pk u r
    · rw [if_pos hm] at h
      cases h
      simp
    · rw [if_neg hm] at h
      rcases h2 : firstIdx pk u t with _ | k
      · rw [h2] at h; cases h
      · rw [h2] at h
        cases h
        exact Nat.succ_lt_succ (ih k h2)

theorem firstIdx_matches (pk : List String) (u : Row) (X : List Row) (i : Nat)
    (h : firstIdx pk u X = some i) : rmatches pk u (X.getD i []) = true := by
  induction X generalizing i with
  | nil => cases h
  | cons r t ih =>
    unfold firstIdx at h
    by_cases hm : rmatches pk u r
    · rw [if_pos hm] at h
      cases h
      exact hm
    · rw [if_neg hm] at h
      rcases h2 : firstIdx pk u t with _ | k
      · rw [h2] at h; cases h
      · rw [h2] at h
        cases h
        exact ih k h2

theorem firstIdx_congr (pk : List String) (v u : Row) (X : List Row)
    (h : ∀ r, rmatches pk v r = rmatches pk u r) :
    firstIdx pk v X = firstIdx pk u X := by
  induction X with
  | nil => rfl
  | cons r t ih =>
    unfold firstIdx
    rw [h r, ih]

theorem firstIdx_set (pk : List String) (u : Row) (X : List Row) (i : Nat) (r' : Row)
    (h : rmatches pk u r' = rmatches pk u (X.getD i [])) :
    firstIdx pk u (X.set i r') = firstIdx pk u X := by
  induction X generalizing i with
  | nil => rfl
  | cons r t ih =>
    cases i with
    | zero =>
      unfold firstIdx
      simp only [List.set]
      rw [show (r :: t).getD 0 [] = r from rfl] at h
      rw [h]
    | succ j =>
      unfold firstIdx
      simp only [List.set]
      rw [ih j (by simpa using h)]

theorem firstIdx_append (pk : List String) (u : Row) (X Y : List Row) :
    firstIdx pk u (X ++ Y) =
      match firstIdx pk u X with
      | some k => some k
      | none => (firstIdx pk u Y).map (· + X.length) := by
  induction X with
  | nil => simp [firstIdx]
  | cons r t ih =>
    by_cases hm : rmatches pk u r
    · simp [firstIdx, hm]
    · simp only [List.cons_append, firstIdx, if_neg hm]
      rw [show firstIdx pk u (t.append Y) = firstIdx pk u (t ++ Y) from rfl, ih]
      rcases h1 : firstIdx pk u t with _ | k
      · rcases h2 : firstIdx pk u Y with _ | m
        · simp [h1, h2]
        · simp [h1, h2, Nat.add_assoc]
      · simp [h1]

theorem firstIdx_isSome_iff (pk : List String) (u : Row) (X : List Row) :
    (firstIdx pk u X).isSome ↔ ∃ r ∈ X, rmatches pk u r = true := by
  induction X with
  | nil => simp [firstIdx]
  | cons r t ih =>
    unfold firstIdx
    by_cases hm : rmatches pk u r
    · simp [hm]
    · simp only [if_neg hm]
      rw [show ((firstIdx pk u t).map (· + 1)).isSome = (firstIdx pk u t).isSome by
        rcases firstIdx pk u t with _ | k <;> rfl]
      rw [ih]
      constructor
      · rintro ⟨x, hx, hm2⟩
        exact ⟨x, List.mem_cons.2 (Or.inr hx), hm2⟩
      · rintro ⟨x, hx, hm2⟩
        rcases List.mem_cons.1 hx with h2 | h2
        · exact absurd (h2 ▸ hm2) (by simpa using hm)
        · exact ⟨x, h2, hm2⟩

theorem upsert1_length_ge (pk : List String) (X : List Row) (u : Row) :
    X.length ≤ (upsert1 pk X u).length := by
  unfold upsert1
  rcases h : firstIdx pk u X with _ | i
  · simp
  · simp

theorem batch_cons (pk : List String) (X : List Row) (u : Row) (B : List Row) :
    batchUpsert pk X (u :: B) = batchUpsert pk (upsert1 pk X u) B := rfl

theorem batch_length_ge (pk : List String) (B : List Row) :
    ∀ X : List Row, X.length ≤ (batchUpsert pk X B).length := by
  induction B with
  | nil => intro X; exact Nat.le_refl _
  | cons u B' ih =>
    intro X
    rw [batch_cons]
    exact Nat.le_trans (upsert1_length_ge pk X u) (ih _)

theorem firstIdx_upsert1_update (pk : List String) (X : List Row) (u : Row) (j : Nat)
    (h : firstIdx pk u X = some j) (v : Row) :
    firstIdx pk v (upsert1 pk X u) = firstIdx pk v X := by
  unfold upsert1
  rw [h]
  exact firstIdx_set pk v X j _ (rmatches_applyUpd pk v (X.getD j []) u)

theorem firstIdx_upsert1_some (pk : List String) (X : List Row) (u v : Row) (k : Nat)
    (h : firstIdx pk v X = some k) :
    firstIdx pk v (upsert1 pk X u) = some k := by
  rcases h2 : firstIdx pk u X with _ | j
  · rw [show upsert1 pk X u = X ++ [u] by unfold upsert1; rw [h2]]
    rw [firstIdx_append, h]
  · rw [firstIdx_upsert1_update pk X u j h2 v, h]

theorem firstIdx_batch_some (pk : List String) (B : List Row) :
    ∀ (X : List Row) (v : Row) (k : Nat), firstIdx pk v X = some k →
      firstIdx pk v (batchUpsert pk X B) = some k := by
  induction B with
  | nil => intro X v k h; exact h
  | cons u B' ih =>
    intro X v k h
    rw [batch_cons]
    exact ih _ v k (firstIdx_upsert1_some pk X u v k h)

theorem routedTo_nil (pk : List String) (X : List Row) (i : Nat) :
    routedTo pk X [] i = [] := rfl

theorem routedTo_cons (pk : List String) (X : List Row) (u : Row) (B : List Row)
    (i : Nat) :
    routedTo pk X (u :: B) i =
      (if firstIdx pk u X = some i then wrWrites pk u else []) ++ routedTo pk X B i := by
  unfold routedTo
  rw [List.filter_cons]
  by_cases h : firstIdx pk u X = some i
  · simp [h]
  · simp [h]

theorem routedTo_congr (pk : List String) (X X' : List Row) (B : List Row) (i : Nat)
    (h : ∀ v ∈ B, (firstIdx pk v X' = some i) ↔ (firstIdx pk v X = some i)) :
    routedTo pk X' B i = routedTo pk X B i := by
  unfold routedTo
  have h2 : ∀ v ∈ B,
      (decide (firstIdx pk v X' = some i)) = (decide (firstIdx pk v X = some i)) := by
    intro v hv
    rw [decide_eq_decide]
    exact h v hv
  rw [List.filter_congr h2]

/-- Row-by-row characterisation of a batch of upserts: position `i` of
the base state ends up as the base row with the writes routed to `i`
applied in order. -/
theorem batch_getD (pk : List String) (B : List Row) :
    ∀ (X : List Row) (i : Nat), i < X.length →
      (batchUpsert pk X B).getD i [] = rowApply (X.getD i []) (routedTo pk X B i) := by
  induction B with
  | nil =>
    intro X i hi
    rw [routedTo_nil, rowApply_nil]
    rfl
  | cons u B' ih =>
    intro X i hi
    rw [batch_cons, routedTo_cons]
    rcases h : firstIdx pk u X with _ | j
    · have hup : upsert1 pk X u = X ++ [u] := by unfold upsert1; rw [h]
      have hlen : i < (X ++ [u]).length := by
        rw [List.length_append]
        omega
      rw [hup, ih (X ++ [u]) i hlen, getD_append_left X [u] i [] hi]
      rw [if_neg (fun h2 => Option.noConfusion h2), List.nil_append]
      have hcongr : ∀ v ∈ B',
          (firstIdx pk v (X ++ [u]) = some i) ↔ (firstIdx pk v X = some i) := by
        intro v hv
        rw [firstIdx_append]
        rcases h2 : firstIdx pk v X with _ | k
        · constructor
          · intro h3
            rcases h4 : firstIdx pk v [u] with _ | m
            · rw [h4] at h3; cases h3
            · rw [h4] at h3
              simp only [Option.map_some] at h3
              have h5 : m + X.length = i := by simpa using Option.some.inj h3
              omega
          · intro h3; cases h3
        · constructor
          · intro h3; exact h3
          · intro h3; exact h3
      rw [routedTo_congr pk X (X ++ [u]) B' i hcongr]
    · have hup : upsert1 pk X u = X.set j (applyUpd pk (X.getD j []) u) := by
        unfold upsert1; rw [h]
      have hstab : ∀ v ∈ B',
          (firstIdx pk v (X.set j (applyUpd pk (X.getD j []) u)) = some i) ↔
            (firstIdx pk v X = some i) := by
        intro v _
        rw [firstIdx_set pk v X j _ (rmatches_applyUpd pk v (X.getD j []) u)]
      have hlen : i < (X.set j (applyUpd pk (X.getD j []) u)).length := by
        rw [List.length_set]
        exact hi
      rw [hup, ih _ i hlen, routedTo_congr pk X _ B' i hstab]
      by_cases hij : i = j
      · subst hij
        rw [getD_set_self X i _ [] hi]
        rw [if_pos rfl]
        unfold applyUpd
        rw [← rowApply_append]
      · rw [getD_set_ne X j i _ [] (fun h2 => hij h2.symm)]
        rw [if_neg (fun h2 => hij (Option.some.inj h2).symm), List.nil_append]

theorem getD_mem {α : Type} (l : List α) (i : Nat) (d : α) (h : i < l.length) :
    l.getD i d ∈ l := by
  induction l generalizing i with
  | nil => cases h
  | cons x t ih =>
    cases i with
    | zero => simp
    | succ j => exact List.mem_cons.2 (Or.inr (ih j (Nat.lt_of_succ_lt_succ h)))

theorem getD_append_length {α : Type} (l : List α) (a d : α) :
    (l ++ [a]).getD l.length d = a := by
  induction l with
  | nil => rfl
  | cons x t ih => exact ih

theorem list_ext_getD {α : Type} (d : α) (l m : List α) (hl : l.length = m.length)
    (h : ∀ i, i < l.length → l.getD i d = m.getD i d) : l = m := by
  apply List.ext_getElem hl
  intro i h1 h2
  have h3 := h i h1
  simpa [List.getD_eq_getElem?_getD, List.getElem?_eq_getElem, h1, h2] using h3

theorem match_persist_upsert1 (pk : List String) (X : List Row) (u v : Row)
    (h : ∃ r ∈ X, rmatches pk v r = true) :
    ∃ r ∈ upsert1 pk X u, rmatches pk v r = true := by
  rw [← firstIdx_isSome_iff] at h ⊢
  rcases h2 : firstIdx pk v X with _ | k
  · rw [h2] at h; cases h
  · rw [firstIdx_upsert1_some pk X u v k h2]
    rfl

theorem upsert1_establish (pk : List String) (X : List Row) (u : Row)
    (hp : ∀ c ∈ pk, (alookup u c).isSome) :
    ∃ r ∈ upsert1 pk X u, rmatches pk u r = true := by
  unfold upsert1
  rcases h : firstIdx pk u X with _ | j
  · exact ⟨u, List.mem_append.2 (Or.inr (by simp)), rmatches_self pk u hp⟩
  · refine ⟨applyUpd pk (X.getD j []) u, ?_, ?_⟩
    · exact mem_set_self X j _ (firstIdx_lt pk u X j h)
    · rw [rmatches_applyUpd]
      exact firstIdx_matches pk u X j h

theorem batch_match_persist (pk : List String) (B : List Row) :
    ∀ (X : List Row) (v : Row), (∃ r ∈ X, rmatches pk v r = true) →
      ∃ r ∈ batchUpsert pk X B, rmatches pk v r = true := by
  induction B with
  | nil => intro X v h; exact h
  | cons u B' ih =>
    intro X v h
    rw [batch_cons]
    exact ih _ v (match_persist_upsert1 pk X u v h)

theorem batch_match_exists (pk : List String) (B : List Row) :
    ∀ (X : List Row) (u : Row), u ∈ B →
      (∀ c ∈ pk, (alookup u c).isSome) →
      ∃ r ∈ batchUpsert pk X B, rmatches pk u r = true := by
  induction B with
  | nil => intro X u h; cases h
  | cons u0 B' ih =>
    intro X u hu hp
    rw [batch_cons]
    rcases List.mem_cons.1 hu with h2 | h2
    · subst h2
      exact batch_match_persist pk B' _ u (upsert1_establish pk X u hp)
    · exact ih _ u h2 hp

theorem batch_length_eq (pk : List String) (B : List Row) :
    ∀ X : List Row, (∀ u ∈ B, ∃ r ∈ X, rmatches pk u r = true) →
      (batchUpsert pk X B).length = X.length := by
  induction B with
  | nil => intro X _; rfl
  | cons u B' ih =>
    intro X h
    have hu : ∃ r ∈ X, rmatches pk u r = true := h u (List.mem_cons.2 (Or.inl rfl))
    rw [← firstIdx_isSome_iff] at hu
    rcases h2 : firstIdx pk u X with _ | j
    · rw [h2] at hu; cases hu
    · rw [batch_cons]
      have hup : upsert1 pk X u = X.set j (applyUpd pk (X.getD j []) u) := by
        unfold upsert1; rw [h2]
      rw [ih _ (fun v hv => match_persist_upsert1 pk X u v
        (h v (List.mem_cons.2 (Or.inr hv)))), hup, List.length_set]

theorem WF_upsert1 (pk : List String) (X : List Row) (u : Row)
    (hX : ∀ r ∈ X, NoDupKeys r) (hu : NoDupKeys u) :
    ∀ r ∈ upsert1 pk X u, NoDupKeys r := by
  intro r hr
  unfold upsert1 at hr
  rcases h : firstIdx pk u X with _ | j <;> rw [h] at hr
  · rcases List.mem_append.1 hr with h2 | h2
    · exact hX r h2
    · rw [List.mem_singleton.1 h2]
      exact hu
  · rcases mem_of_mem_set X j _ r hr with h2 | h2
    · rw [h2]
      unfold applyUpd
      exact NoDupKeys_rowApply _ _ (hX _ (getD_mem X j [] (firstIdx_lt pk u X j h)))
    · exact hX r h2

theorem WF_batch (pk : List String) (B : List Row) :
    ∀ X : List Row, (∀ r ∈ X, NoDupKeys r) → (∀ u ∈ B, NoDupKeys u) →
      ∀ r ∈ batchUpsert pk X B, NoDupKeys r := by
  induction B with
  | nil => intro X hX _; exact hX
  | cons u B' ih =>
    intro X hX hB
    rw [batch_cons]
    exact ih _ (WF_upsert1 pk X u hX (hB u (List.mem_cons.2 (Or.inl rfl))))
      (fun v hv => hB v (List.mem_cons.2 (Or.inr hv)))

theorem filter_set_same (q : Row → Bool) (X : List Row) :
    ∀ (i : Nat) (r' : Row), i < X.length → q (X.getD i []) = false → q r' = false →
      (X.set i r').filter q = X.filter q := by
  induction X with
  | nil => intro i r' h; cases h
  | cons x t ih =>
    intro i r' hi h1 h2
    cases i with
    | zero =>
      rw [show (x :: t).getD 0 [] = x from rfl] at h1
      simp [List.filter_cons, h1, h2]
    | succ j =>
      simp only [List.set, List.filter_cons]
      rw [ih j r' (Nat.lt_of_succ_lt_succ hi) (by simpa using h1) h2]

theorem upsert1_filter (pk : List String) (q : Row → Bool) (X : List Row) (u : Row)
    (hq : ∀ r, rmatches pk u r = true → q r = false) (hqu : q u = false) :
    (upsert1 pk X u).filter q = X.filter q := by
  unfold upsert1
  rcases h : firstIdx pk u X with _ | j
  · rw [List.filter_append]
    simp [List.filter_cons, hqu]
  · exact filter_set_same q X j _ (firstIdx_lt pk u X j h)
      (hq _ (firstIdx_matches pk u X j h))
      (hq _ (by rw [rmatches_applyUpd]; exact firstIdx_matches pk u X j h))

/-- Rows temporarily or finally matching no batch element pass through
a batch of upserts untouched: the rows satisfying a predicate falsified
by every batch row (inserted or updated) are exactly those of the base
state. -/
theorem batch_filter (pk : List String) (q : Row → Bool) (B : List Row) :
    ∀ X : List Row,
      (∀ u ∈ B, (∀ r, rmatches pk u r = true → q r = false) ∧ q u = false) →
      (batchUpsert pk X B).filter q = X.filter q := by
  induction B with
  | nil => intro X _; rfl
  | cons u B' ih =>
    intro X h
    rw [batch_cons, ih _ (fun v hv => h v (List.mem_cons.2 (Or.inr hv)))]
    exact upsert1_filter pk q X u (h u (List.mem_cons.2 (Or.inl rfl))).1
      (h u (List.mem_cons.2 (Or.inl rfl))).2

theorem firstIdx_cons (pk : List String) (u x : Row) (l : List Row) :
    firstIdx pk u (x :: l) =
      if rmatches pk u x then some 0 else (firstIdx pk u l).map (· + 1) := rfl

theorem filter_firstIdx (pk : List String) (u : Row) (g : Row → Bool) :
    ∀ (X : List Row) (i : Nat),
      (∀ r ∈ X, rmatches pk u r = true → g r = true) →
      firstIdx pk u (X.filter g) = some i →
      ∃ j, firstIdx pk u X = some j ∧ (X.filter g).getD i [] = X.getD j [] := by
  intro X
  induction X with
  | nil => intro i _ h; cases h
  | cons x t ih =>
    intro i hAll h
    by_cases hg : g x
    · rw [show (x :: t).filter g = x :: t.filter g by simp [List.filter_cons, hg]] at h
      by_cases hm : rmatches pk u x
      · rw [firstIdx_cons, if_pos hm] at h
        refine ⟨0, ?_, ?_⟩
        · rw [firstIdx_cons, if_pos hm]
        · cases h
          rw [show (x :: t).filter g = x :: t.filter g by simp [List.filter_cons, hg]]
          rfl
      · rw [firstIdx_cons, if_neg hm] at h
        rcases h2 : firstIdx pk u (t.filter g) with _ | i2
        · rw [h2] at h; cases h
        · rw [h2] at h
          have hi : i = i2 + 1 := by
            have h5 : i2 + 1 = i := by simpa using Option.some.inj h
            omega
          subst hi
          rcases ih i2 (fun r hr => hAll r (List.mem_cons.2 (Or.inr hr))) h2 with
            ⟨j, hj1, hj2⟩
          refine ⟨j + 1, ?_, ?_⟩
          · rw [firstIdx_cons, if_neg hm, hj1]
            rfl
          · rw [show (x :: t).filter g = x :: t.filter g by simp [List.filter_cons, hg]]
            rw [show (x :: t.filter g).getD (i2 + 1) [] = (t.filter g).getD i2 [] from rfl]
            rw [show (x :: t).getD (j + 1) [] = t.getD j [] from rfl]
            exact hj2
    · have hm : rmatches pk u x = false := by
        rcases h2 : rmatches pk u x with _ | _
        · rfl
        · exact absurd (hAll x (List.mem_cons.2 (Or.inl rfl)) h2) (by simpa using hg)
      rw [show (x :: t).filter g = t.filter g by simp [List.filter_cons, hg]] at h
      rcases ih i (fun r hr => hAll r (List.mem_cons.2 (Or.inr hr))) h with ⟨j, hj1, hj2⟩
      refine ⟨j + 1, ?_, ?_⟩
      · rw [firstIdx_cons, if_neg (by simp [hm]), hj1]
        rfl
      · rw [show (x :: t).filter g = t.filter g by simp [List.filter_cons, hg]]
        rw [show (x :: t).getD (j + 1) [] = t.getD j [] from rfl]
        exact hj2

/-- A first-match row of a finished batch has absorbed the writes of
every batch element conflicting with it: replaying them is a no-op. -/
theorem batch_absorb (pk : List String) (B : List Row) :
    ∀ (T0 : List Row) (u : Row) (j : Nat),
      (∀ r ∈ T0, NoDupKeys r) → (∀ w ∈ B, NoDupKeys w) →
      (∀ w ∈ B, ∀ c ∈ pk, (alookup w c).isSome) →
      u ∈ B → firstIdx pk u (batchUpsert pk T0 B) = some j →
      rowApply ((batchUpsert pk T0 B).getD j [])
          ((B.filter
            (fun v => rmatches pk v ((batchUpsert pk T0 B).getD j []))).flatMap
            (wrWrites pk)) =
        (batchUpsert pk T0 B).getD j [] := by
  induction B with
  | nil =>
    intro T0 u j _ _ _ hu
    cases hu
  | cons u0 B' ih =>
    intro T0 u j hT0 hB hp hu hfi
    rw [batch_cons] at hfi ⊢
    set X := batchUpsert pk (upsert1 pk T0 u0) B' with hXdef
    have hρm : rmatches pk u (X.getD j []) = true := firstIdx_matches pk u X j hfi
    have hT0' : ∀ r ∈ upsert1 pk T0 u0, NoDupKeys r :=
      WF_upsert1 pk T0 u0 hT0 (hB u0 (List.mem_cons.2 (Or.inl rfl)))
    have hB' : ∀ w ∈ B', NoDupKeys w := fun w hw => hB w (List.mem_cons.2 (Or.inr hw))
    have hp' : ∀ w ∈ B', ∀ c ∈ pk, (alookup w c).isSome :=
      fun w hw => hp w (List.mem_cons.2 (Or.inr hw))
    by_cases hm0 : rmatches pk u0 (X.getD j []) = true
    · -- u0 conflicts with the target row: its writes are part of the replay
      have key : ∀ r1 j0, firstIdx pk u0 (upsert1 pk T0 u0) = some j0 →
          (upsert1 pk T0 u0).getD j0 [] = r1 → NoDupKeys r1 →
          (∀ x ∈ akeys (wrWrites pk u0), x ∈ akeys r1) →
          (∀ c ∈ akeys (wrWrites pk u0),
            alookup r1 c = alookup (wrWrites pk u0).reverse c) →
          rowApply (X.getD j [])
              (((u0 :: B').filter
                (fun v => rmatches pk v (X.getD j []))).flatMap (wrWrites pk)) =
            X.getD j [] := by
        intro r1 j0 hfi0 hr1 hnd1 hsub1 hlook1
        have hA : firstIdx pk u0 X = some j0 :=
          firstIdx_batch_some pk B' (upsert1 pk T0 u0) u0 j0 hfi0
        have hAB : firstIdx pk u0 X = firstIdx pk u X :=
          firstIdx_congr pk u0 u X
            (rmatches_eq_of_both_match pk u0 u (X.getD j []) hm0 hρm)
        have hjj : j0 = j := Option.some.inj (hA.symm.trans (hAB.trans hfi))
        subst hjj
        have hρ : X.getD j0 [] =
            rowApply ((upsert1 pk T0 u0).getD j0 []) (routedTo pk (upsert1 pk T0 u0) B' j0) :=
          batch_getD pk B' (upsert1 pk T0 u0) j0
            (firstIdx_lt pk u0 (upsert1 pk T0 u0) j0 hfi0)
        have hW' : routedTo pk (upsert1 pk T0 u0) B' j0 =
            (B'.filter (fun v => rmatches pk v (X.getD j0 []))).flatMap (wrWrites pk) := by
          unfold routedTo
          have hcong : ∀ v ∈ B',
              (decide (firstIdx pk v (upsert1 pk T0 u0) = some j0)) =
                rmatches pk v (X.getD j0 []) := by
            intro v hv
            rcases hv2 : rmatches pk v (X.getD j0 []) with _ | _
            · simp only [decide_eq_false_iff_not]
              intro h3
              have h4 : firstIdx pk v X = some j0 :=
                firstIdx_batch_some pk B' (upsert1 pk T0 u0) v j0 h3
              have h5 := firstIdx_matches pk v X j0 h4
              rw [hv2] at h5
              cases h5
            · simp only [decide_eq_true_eq]
              have h3 : firstIdx pk v (upsert1 pk T0 u0) = firstIdx pk u0 (upsert1 pk T0 u0) :=
                firstIdx_congr pk v u0 _
                  (rmatches_eq_of_both_match pk v u0 (X.getD j0 []) hv2 hm0)
              exact h3.trans hfi0
          rw [List.filter_congr hcong]
        have hfil : (u0 :: B').filter (fun v => rmatches pk v (X.getD j0 [])) =
            u0 :: B'.filter (fun v => rmatches pk v (X.getD j0 [])) := by
          rw [List.filter_cons, if_pos hm0]
        rw [hfil, List.flatMap_cons, ← hW', hρ, hr1]
        exact rowApply_absorb r1 (wrWrites pk u0) (routedTo pk (upsert1 pk T0 u0) B' j0)
          hnd1 hsub1 (fun c hc _ => hlook1 c hc)
      rcases h0 : firstIdx pk u0 T0 with _ | j0
      · -- first occurrence of this key: the upsert inserted `u0` itself
        have hT0up : upsert1 pk T0 u0 = T0 ++ [u0] := by unfold upsert1; rw [h0]
        have hfi0 : firstIdx pk u0 (upsert1 pk T0 u0) = some T0.length := by
          rw [hT0up, firstIdx_append, h0]
          rw [show firstIdx pk u0 [u0] = some 0 by
            rw [firstIdx_cons,
              if_pos (rmatches_self pk u0 (hp u0 (List.mem_cons.2 (Or.inl rfl))))]]
          simp
        have hr1 : (upsert1 pk T0 u0).getD T0.length [] = u0 := by
          rw [hT0up]
          exact getD_append_length T0 u0 []
        apply key u0 T0.length hfi0 hr1 (hB u0 (List.mem_cons.2 (Or.inl rfl)))
        · intro x hx
          exact (sublist_akeys_wrWrites pk u0).subset hx
        · intro c hc
          rw [alookup_reverse_of_nodup _ c
            (NoDupKeys_wrWrites pk u0 (hB u0 (List.mem_cons.2 (Or.inl rfl))))]
          exact (alookup_wrWrites pk u0 c (akeys_wrWrites_not_pk pk u0 c hc)).symm
      · -- the upsert updated the first conflicting row of `T0`
        have hT0up : upsert1 pk T0 u0 = T0.set j0 (applyUpd pk (T0.getD j0 []) u0) := by
          unfold upsert1; rw [h0]
        have hfi0 : firstIdx pk u0 (upsert1 pk T0 u0) = some j0 := by
          rw [firstIdx_upsert1_update pk T0 u0 j0 h0 u0]
          exact h0
        have hr1 : (upsert1 pk T0 u0).getD j0 [] = applyUpd pk (T0.getD j0 []) u0 := by
          rw [hT0up]
          exact getD_set_self T0 j0 _ [] (firstIdx_lt pk u0 T0 j0 h0)
        apply key (applyUpd pk (T0.getD j0 []) u0) j0 hfi0 hr1
        · exact NoDupKeys_rowApply _ _
            (hT0 _ (getD_mem T0 j0 [] (firstIdx_lt pk u0 T0 j0 h0)))
        · intro x hx
          exact akeysW_sub_rowApply _ _ x hx
        · intro c hc
          exact alookup_rowApply_mem _ _ c hc
    · -- u0 does not conflict with the target row: drop it and recurse
      have hu' : u ∈ B' := by
        rcases List.mem_cons.1 hu with h2 | h2
        · subst h2
          exact absurd hρm hm0
        · exact h2
      have hfil : (u0 :: B').filter (fun v => rmatches pk v (X.getD j [])) =
          B'.filter (fun v => rmatches pk v (X.getD j [])) := by
        rw [List.filter_cons, if_neg hm0]
      rw [hfil]
      exact ih (upsert1 pk T0 u0) u j hT0' hB' hp' hu' hfi

/-- Replaying a batch of upserts over its own result (possibly after a
deletion pass that only removes rows conflicting with no batch element)
is a no-op. -/
theorem batch_replay (pk : List String) (B : List Row) (T0 : List Row) (g : Row → Bool)
    (hT0 : ∀ r ∈ T0, NoDupKeys r) (hB : ∀ u ∈ B, NoDupKeys u)
    (hp : ∀ u ∈ B, ∀ c ∈ pk, (alookup u c).isSome)
    (hg : ∀ u ∈ B, ∀ r, rmatches pk u r = true → g r = true) :
    batchUpsert pk ((batchUpsert pk T0 B).filter g) B =
      (batchUpsert pk T0 B).filter g := by
  have hmatch : ∀ u ∈ B, ∃ r ∈ (batchUpsert pk T0 B).filter g, rmatches pk u r = true := by
    intro u hu
    rcases batch_match_exists pk B T0 u hu (hp u hu) with ⟨r, hr, hm⟩
    exact ⟨r, List.mem_filter.2 ⟨hr, hg u hu r hm⟩, hm⟩
  have hlen := batch_length_eq pk B ((batchUpsert pk T0 B).filter g) hmatch
  apply list_ext_getD [] _ _ hlen
  intro i hi
  have hi2 : i < ((batchUpsert pk T0 B).filter g).length := by omega
  rw [batch_getD pk B _ i hi2]
  by_cases hex : ∃ u ∈ B, firstIdx pk u ((batchUpsert pk T0 B).filter g) = some i
  · rcases hex with ⟨u, hu, hfi⟩
    have hρm : rmatches pk u (((batchUpsert pk T0 B).filter g).getD i []) = true :=
      firstIdx_matches pk u _ i hfi
    have hWeq : routedTo pk ((batchUpsert pk T0 B).filter g) B i =
        (B.filter
          (fun v => rmatches pk v (((batchUpsert pk T0 B).filter g).getD i []))).flatMap
          (wrWrites pk) := by
      unfold routedTo
      have hcong : ∀ v ∈ B,
          (decide (firstIdx pk v ((batchUpsert pk T0 B).filter g) = some i)) =
            rmatches pk v (((batchUpsert pk T0 B).filter g).getD i []) := by
        intro v hv
        rcases hv2 : rmatches pk v (((batchUpsert pk T0 B).filter g).getD i []) with _ | _
        · simp only [decide_eq_false_iff_not]
          intro h3
          have h5 := firstIdx_matches pk v _ i h3
          rw [hv2] at h5
          cases h5
        · simp only [decide_eq_true_eq]
          have h3 := firstIdx_congr pk v u ((batchUpsert pk T0 B).filter g)
            (rmatches_eq_of_both_match pk v u _ hv2 hρm)
          exact h3.trans hfi
      rw [List.filter_congr hcong]
    rcases filter_firstIdx pk u g (batchUpsert pk T0 B) i
      (fun r _ hm => hg u hu r hm) hfi with ⟨j, hj1, hj2⟩
    rw [hWeq, hj2]
    exact batch_absorb pk B T0 u j hT0 hB hp hu hj1
  · have hnil : routedTo pk ((batchUpsert pk T0 B).filter g) B i = [] := by
      unfold routedTo
      have h2 : B.filter
          (fun u => decide (firstIdx pk u ((batchUpsert pk T0 B).filter g) = some i)) = [] := by
        apply List.filter_eq_nil_iff.2
        intro a ha
        simp only [decide_eq_true_eq]
        exact fun h3 => hex ⟨a, ha, h3⟩
      rw [h2]
      rfl
    rw [hnil, rowApply_nil]

/-! ## Lemmas: the sync orchestrator -/

theorem NoDupKeys_foldl_aset {α : Type} (l : List α) (f : α → String)
    (g : α → Option String) :
    ∀ acc : Row, NoDupKeys acc →
      NoDupKeys (l.foldl
        (fun acc cm =>
          match g cm with
          | some v => aset acc (f cm) v
          | none => acc) acc) := by
  induction l with
  | nil => intro acc h; exact h
  | cons cm t ih =>
    intro acc h
    rw [List.foldl_cons]
    rcases g cm with _ | v
    · exact ih acc h
    · exact ih _ (NoDupKeys_aset acc (f cm) v h)

theorem buildRowData_NoDupKeys (syncCols : List ColumnMapping) (job : SyncJob)
    (sync_date : Option String) (row : Row) :
    NoDupKeys (buildRowData syncCols job sync_date row) := by
  unfold buildRowData
  have hbase : NoDupKeys (syncCols.foldl
      (fun acc cm =>
        match alookup row cm.csv_column with
        | some v => aset acc cm.db_column v
        | none => acc) []) :=
    NoDupKeys_foldl_aset syncCols (fun cm => cm.db_column)
      (fun cm => alookup row cm.csv_column) [] (by simp [NoDupKeys, akeys])
  rcases job.date_mapping with _ | dm
  · rcases sync_date with _ | d
    · exact hbase
    · exact hbase
  · rcases sync_date with _ | d
    · exact hbase
    · exact NoDupKeys_aset _ _ _ hbase

/-- Facts the row loop guarantees about its output: one payload per CSV
row, each wellformed, each carrying an id value recorded in the synced
id set. -/
theorem processRows_ok (syncCols : List ColumnMapping) (job : SyncJob)
    (sync_date : Option String) :
    ∀ (rows : List Row) (datas : List Row) (ids : List String),
      processRows syncCols job sync_date rows = Except.ok (datas, ids) →
      datas.length = rows.length ∧
      (∀ rd ∈ datas, NoDupKeys rd) ∧
      (∀ rd ∈ datas, ∃ v, alookup rd job.id_mapping.db_column = some v ∧ v ∈ ids) := by
  intro rows
  induction rows with
  | nil =>
    intro datas ids h
    unfold processRows at h
    cases h
    exact ⟨rfl, by simp, by simp⟩
  | cons row rest ih =>
    intro datas ids h
    unfold processRows at h
    simp only [] at h
    rcases h1 : alookup (buildRowData syncCols job sync_date row)
        job.id_mapping.db_column with _ | v
    · rw [h1] at h; cases h
    · rw [h1] at h
      rcases h2 : processRows syncCols job sync_date rest with e | p
      · rw [h2] at h; cases h
      · rw [h2] at h
        rcases p with ⟨datas', ids'⟩
        cases h
        rcases ih datas' ids' h2 with ⟨hlen, hnd, hids⟩
        refine ⟨by simp [hlen], ?_, ?_⟩
        · intro rd hrd
          rcases List.mem_cons.1 hrd with h3 | h3
          · rw [h3]
            exact buildRowData_NoDupKeys syncCols job sync_date row
          · exact hnd rd h3
        · intro rd hrd
          rcases List.mem_cons.1 hrd with h3 | h3
          · exact ⟨v, h3 ▸ h1, List.mem_cons.2 (Or.inl rfl)⟩
          · rcases hids rd h3 with ⟨w, hw1, hw2⟩
            exact ⟨w, hw1, List.mem_cons.2 (Or.inr hw2)⟩

/-- A row conflicting on the id column with a payload whose id was
recorded never satisfies the stale predicate. -/
theorem staleB_false_of_matches (idCol dateCol d : String) (ids : List String)
    (rd : Row) (v : String) (hv : alookup rd idCol = some v) (hmem : v ∈ ids) :
    ∀ r : Row, rmatches [idCol] rd r = true →
      staleB idCol dateCol d ids r = false := by
  intro r hm
  rcases pk_lookup_of_rmatches [idCol] rd r idCol (by simp) hm with ⟨a, ha1, ha2⟩
  rw [hv] at ha1
  cases ha1
  unfold staleB
  rw [ha2]
  simp [hmem]

theorem staleB_false_self (idCol dateCol d : String) (ids : List String)
    (rd : Row) (v : String) (hv : alookup rd idCol = some v) (hmem : v ∈ ids) :
    staleB idCol dateCol d ids rd = false := by
  unfold staleB
  rw [hv]
  simp [hmem]

/-- The number of rows satisfying the stale predicate is unchanged by
upserting the batch whose ids are all recorded in `ids`. -/
theorem batch_stale_filter (idCol dateCol d : String) (ids : List String)
    (X : List Row) (datas : List Row)
    (h : ∀ rd ∈ datas, ∃ v, alookup rd idCol = some v ∧ v ∈ ids) :
    (batchUpsert [idCol] X datas).filter (staleB idCol dateCol d ids) =
      X.filter (staleB idCol dateCol d ids) := by
  apply batch_filter
  intro u hu
  rcases h u hu with ⟨v, hv1, hv2⟩
  exact ⟨staleB_false_of_matches idCol dateCol d ids u v hv1 hv2,
    staleB_false_self idCol dateCol d ids u v hv1 hv2⟩

theorem foldAdds_rows (cd : List (String × String)) (ex : List String) :
    ∀ t : Table,
      (cd.foldl
        (fun t p => if pyLower p.1 ∈ ex then t else add_column t p.1 p.2) t).rows =
        t.rows := by
  induction cd with
  | nil => intro t; rfl
  | cons p cd' ih =>
    intro t
    rw [List.foldl_cons]
    by_cases h : pyLower p.1 ∈ ex
    · rw [if_pos h]; exact ih t
    · rw [if_neg h, ih]; rfl

theorem foldAdds_pk (cd : List (String × String)) (ex : List String) :
    ∀ t : Table,
      (cd.foldl
        (fun t p => if pyLower p.1 ∈ ex then t else add_column t p.1 p.2) t).primary_keys =
        t.primary_keys := by
  induction cd with
  | nil => intro t; rfl
  | cons p cd' ih =>
    intro t
    rw [List.foldl_cons]
    by_cases h : pyLower p.1 ∈ ex
    · rw [if_pos h]; exact ih t
    · rw [if_neg h, ih]; rfl

theorem foldAdds_schema (cd : List (String × String)) (ex : List String) :
    ∀ t : Table, ∃ added,
      (cd.foldl
        (fun t p => if pyLower p.1 ∈ ex then t else add_column t p.1 p.2) t).schema =
        t.schema ++ added := by
  induction cd with
  | nil => intro t; exact ⟨[], by simp⟩
  | cons p cd' ih =>
    intro t
    rw [List.foldl_cons]
    by_cases h : pyLower p.1 ∈ ex
    · rw [if_pos h]; exact ih t
    · rw [if_neg h]
      rcases ih (add_column t p.1 p.2) with ⟨added, hadd⟩
      exact ⟨(p.1, p.2) :: added, by rw [hadd]; simp [add_column]⟩

theorem foldAdds_noop (cd : List (String × String)) (ex : List String)
    (h : ∀ p ∈ cd, pyLower p.1 ∈ ex) :
    ∀ t : Table,
      cd.foldl (fun t p => if pyLower p.1 ∈ ex then t else add_column t p.1 p.2) t = t := by
  induction cd with
  | nil => intro t; rfl
  | cons p cd' ih =>
    intro t
    rw [List.foldl_cons, if_pos (h p (List.mem_cons.2 (Or.inl rfl)))]
    exact ih (fun q hq => h q (List.mem_cons.2 (Or.inr hq))) t

theorem foldAdds_covers (cd : List (String × String)) (ex : List String) :
    ∀ (t : Table) (p : String × String), p ∈ cd → ¬ pyLower p.1 ∈ ex →
      p.1 ∈ (cd.foldl
        (fun t p => if pyLower p.1 ∈ ex then t else add_column t p.1 p.2) t).schema.map
        Prod.fst := by
  induction cd with
  | nil => intro t p h; cases h
  | cons q cd' ih =>
    intro t p hp hnx
    rw [List.foldl_cons]
    rcases List.mem_cons.1 hp with h2 | h2
    · subst h2
      rw [if_neg hnx]
      rcases foldAdds_schema cd' ex (add_column t p.1 p.2) with ⟨added, hadd⟩
      rw [hadd]
      simp [add_column]
    · by_cases hq : pyLower q.1 ∈ ex
      · rw [if_pos hq]
        exact ih t p h2 hnx
      · rw [if_neg hq]
        exact ih _ p h2 hnx

/-- The schema phase expressed through its components. -/
theorem schemaPhase_eq (st : Option Table) (job : SyncJob)
    (cd : List (String × String)) :
    schemaPhase st job cd =
      cd.foldl
        (fun t p =>
          if pyLower p.1 ∈ get_existing_columns
              (some (create_table_if_not_exists st cd [job.id_mapping.db_column])) then t
          else add_column t p.1 p.2)
        (create_table_if_not_exists st cd [job.id_mapping.db_column]) := rfl

theorem schemaPhase_rows (st : Option Table) (job : SyncJob)
    (cd : List (String × String)) :
    (schemaPhase st job cd).rows =
      (create_table_if_not_exists st cd [job.id_mapping.db_column]).rows := by
  rw [schemaPhase_eq]
  exact foldAdds_rows cd _ _

theorem schemaPhase_pk (st : Option Table) (job : SyncJob)
    (cd : List (String × String)) :
    (schemaPhase st job cd).primary_keys =
      (create_table_if_not_exists st cd [job.id_mapping.db_column]).primary_keys := by
  rw [schemaPhase_eq]
  exact foldAdds_pk cd _ _

theorem schemaPhase_schema_extends (st : Option Table) (job : SyncJob)
    (cd : List (String × String)) :
    ∃ added, (schemaPhase st job cd).schema =
      (create_table_if_not_exists st cd [job.id_mapping.db_column]).schema ++ added := by
  rw [schemaPhase_eq]
  exact foldAdds_schema cd _ _

/-- After the schema phase, every definition column is present
(case-insensitively) in the live table. -/
theorem schemaPhase_covers (st : Option Table) (job : SyncJob)
    (cd : List (String × String)) :
    ∀ p ∈ cd, pyLower p.1 ∈ get_existing_columns (some (schemaPhase st job cd)) := by
  intro p hp
  rw [schemaPhase_eq]
  have hsome : ∀ t : Table,
      get_existing_columns (some t) = (t.schema.map Prod.fst).map pyLower :=
    fun t => rfl
  by_cases hx : pyLower p.1 ∈ get_existing_columns
      (some (create_table_if_not_exists st cd [job.id_mapping.db_column]))
  · rcases foldAdds_schema cd
        (get_existing_columns (some (create_table_if_not_exists st cd [job.id_mapping.db_column])))
        (create_table_if_not_exists st cd [job.id_mapping.db_column]) with ⟨added, hadd⟩
    rw [hsome, hadd]
    simp only [List.map_append, List.mem_append]
    left
    rw [hsome] at hx
    exact hx
  · have h2 := foldAdds_covers cd
      (get_existing_columns (some (create_table_if_not_exists st cd [job.id_mapping.db_column])))
      (create_table_if_not_exists st cd [job.id_mapping.db_column]) p hp hx
    rw [hsome]
    exact List.mem_map.2 ⟨p.1, h2, rfl⟩

/-! ## Claim theorems -/

theorem delete_stale_records_snd (t : Table) (idCol dateCol d : String)
    (ids : List String) :
    (delete_stale_records t idCol dateCol d ids).2 =
      if ids.isEmpty then 0 else (t.rows.filter (staleB idCol dateCol d ids)).length := by
  unfold delete_stale_records
  by_cases h : ids.isEmpty
  · rw [if_pos h, if_pos h]
  · rw [if_neg h, if_neg h]

/-- C1: for identical inputs, the dry run (`syncDryRun`, modelled from
the spec) returns rows-to-sync and rows-to-delete counts exactly equal
to the rows-synced and rows-deleted counts the real `sync_csv_file`
produces, and fails exactly when the real sync fails; the dry run is a
pure computation on the current state (no table is created or
modified), so a table absent beforehand stays absent and an existing
table is unchanged. -/
theorem C1_dry_run_equivalence (csv : Csv) (job : SyncJob) (sync_date : Option String)
    (st : Option Table) :
    (syncCsvFile csv job sync_date st).map (fun r => (r.2.1, r.2.2)) =
      (syncDryRun csv job sync_date st).map (fun s => (s.rows_to_sync, s.rows_to_delete)) := by
  unfold syncCsvFile syncDryRun
  rcases h1 : buildSyncColumns csv.headers job with e | syncCols
  · rfl
  · simp only []
    rcases h2 : processRows syncCols job sync_date csv.rows with e | p
    · rfl
    · rcases p with ⟨datas, ids⟩
      rcases processRows_ok syncCols job sync_date csv.rows datas ids h2 with ⟨_, _, hids⟩
      simp only [Except.map]
      rcases hdm : job.date_mapping with _ | dm
      · rcases st with _ | t <;> rcases sync_date with _ | d <;> rfl
      · rcases sync_date with _ | d
        · rcases st with _ | t <;> rfl
        · have hrows : (schemaPhase st job (buildColumnsDef syncCols job)).rows =
              match st with
              | some t => t.rows
              | none => [] := by
            rw [schemaPhase_rows]
            rcases st with _ | t <;> rfl
          rcases st with _ | t
          · simp only [delete_stale_records_snd]
            rw [show (schemaPhase none job (buildColumnsDef syncCols job)).rows =
              ([] : List Row) from hrows]
            rw [batch_stale_filter job.id_mapping.db_column dm.db_column d ids [] datas hids]
            by_cases hempty : ids.isEmpty
            · rw [if_pos hempty]
            · rw [if_neg hempty]
              rfl
          · simp only [delete_stale_records_snd]
            rw [show (schemaPhase (some t) job (buildColumnsDef syncCols job)).rows = t.rows
              from hrows]
            rw [batch_stale_filter job.id_mapping.db_column dm.db_column d ids t.rows datas hids]

/-- C2: syncing the same source file with the same job (and sync date)
twice in succession yields an identical final table state — the second
sync returns exactly the state the first one produced (same rows, same
row contents, no duplicates introduced) and deletes nothing. -/
theorem C2_sync_idempotent (csv : Csv) (job : SyncJob) (sync_date : Option String)
    (st st1 : Option Table) (n d : Nat) (hst : WFTable st)
    (h : syncCsvFile csv job sync_date st = Except.ok (st1, n, d)) :
    syncCsvFile csv job sync_date st1 = Except.ok (st1, n, 0) := by
  unfold syncCsvFile at h ⊢
  rcases h1 : buildSyncColumns csv.headers job with e | syncCols
  · rw [h1] at h
    cases h
  · simp only [h1] at h ⊢
    rcases h2 : processRows syncCols job sync_date csv.rows with e | p
    · rw [h2] at h
      cases h
    · rcases p with ⟨datas, ids⟩
      simp only [h2] at h ⊢
      rcases processRows_ok syncCols job sync_date csv.rows datas ids h2 with ⟨_, hnd, hids⟩
      have ht1wf : ∀ r ∈ (schemaPhase st job (buildColumnsDef syncCols job)).rows,
          NoDupKeys r := by
        rw [schemaPhase_rows]
        rcases st with _ | t0
        · intro r hr; cases hr
        · exact hst t0 rfl
      have hpres : ∀ u ∈ datas, ∀ c ∈ [job.id_mapping.db_column], (alookup u c).isSome := by
        intro u hu c hc
        rcases hids u hu with ⟨v, hv1, _⟩
        rcases List.mem_singleton.1 hc with rfl
        rw [hv1]
        rfl
      have hcovers2 : ∀ (T : Table), T.schema =
            (schemaPhase st job (buildColumnsDef syncCols job)).schema →
          schemaPhase (some T) job (buildColumnsDef syncCols job) = T := by
        intro T hTs
        rw [schemaPhase_eq]
        apply foldAdds_noop
        intro p hp
        have h3 := schemaPhase_covers st job (buildColumnsDef syncCols job) p hp
        have hsome : ∀ t : Table,
            get_existing_columns (some t) = (t.schema.map Prod.fst).map pyLower :=
          fun t => rfl
        have h4 : get_existing_columns
            (some (create_table_if_not_exists (some T) (buildColumnsDef syncCols job)
              [job.id_mapping.db_column])) =
            get_existing_columns (some (schemaPhase st job (buildColumnsDef syncCols job))) := by
          rw [show create_table_if_not_exists (some T) (buildColumnsDef syncCols job)
            [job.id_mapping.db_column] = T from rfl]
          rw [hsome T, hsome (schemaPhase st job (buildColumnsDef syncCols job)), hTs]
        rw [h4]
        exact h3
      have hrepTrue : batchUpsert [job.id_mapping.db_column]
          (batchUpsert [job.id_mapping.db_column]
            (schemaPhase st job (buildColumnsDef syncCols job)).rows datas) datas =
          batchUpsert [job.id_mapping.db_column]
            (schemaPhase st job (buildColumnsDef syncCols job)).rows datas := by
        have h3 := batch_replay [job.id_mapping.db_column] datas
          (schemaPhase st job (buildColumnsDef syncCols job)).rows (fun _ => true)
          ht1wf hnd hpres (fun u _ r _ => rfl)
        simp only [List.filter_true] at h3
        exact h3
      have hT2 := hcovers2
        (⟨(schemaPhase st job (buildColumnsDef syncCols job)).schema,
          (schemaPhase st job (buildColumnsDef syncCols job)).primary_keys,
          batchUpsert [job.id_mapping.db_column]
            (schemaPhase st job (buildColumnsDef syncCols job)).rows datas⟩ : Table) rfl
      rcases hdm : job.date_mapping with _ | dm
      · -- no date mapping: no delete pass
        simp only [hdm] at h
        rcases sync_date with _ | d2
        · cases h
          rw [hT2]
          dsimp only
          rw [hrepTrue]
        · cases h
          rw [hT2]
          dsimp only
          rw [hrepTrue]
      · simp only [hdm] at h ⊢
        rcases sync_date with _ | d2
        · -- no sync date: no delete pass
          cases h
          rw [hT2]
          dsimp only
          rw [hrepTrue]
        · -- delete pass configured
          by_cases hempty : ids.isEmpty
          · have hdel : ∀ T : Table,
                delete_stale_records T job.id_mapping.db_column dm.db_column d2 ids = (T, 0) := by
              intro T
              unfold delete_stale_records
              rw [if_pos hempty]
            dsimp only at h
            rw [hdel] at h
            cases h
            rw [hT2]
            dsimp only
            rw [hrepTrue, hdel]
          · have hdel : ∀ T : Table,
                delete_stale_records T job.id_mapping.db_column dm.db_column d2 ids =
                  (⟨T.schema, T.primary_keys,
                      T.rows.filter
                        (fun r => !staleB job.id_mapping.db_column dm.db_column d2 ids r)⟩,
                   (T.rows.filter (staleB job.id_mapping.db_column dm.db_column d2 ids)).length) := by
              intro T
              unfold delete_stale_records
              rw [if_neg hempty]
            dsimp only at h
            rw [hdel] at h
            cases h
            have hg : ∀ u ∈ datas, ∀ r : Row,
                rmatches [job.id_mapping.db_column] u r = true →
                (fun r => !staleB job.id_mapping.db_column dm.db_column d2 ids r) r = true := by
              intro u hu r hm
              rcases hids u hu with ⟨v, hv1, hv2⟩
              simp only [Bool.not_eq_true']
              exact staleB_false_of_matches job.id_mapping.db_column dm.db_column d2 ids
                u v hv1 hv2 r hm
            have hrepK := batch_replay [job.id_mapping.db_column] datas
              (schemaPhase st job (buildColumnsDef syncCols job)).rows
              (fun r => !staleB job.id_mapping.db_column dm.db_column d2 ids r)
              ht1wf hnd hpres hg
            have hT3 := hcovers2
              (⟨(schemaPhase st job (buildColumnsDef syncCols job)).schema,
                (schemaPhase st job (buildColumnsDef syncCols job)).primary_keys,
                (batchUpsert [job.id_mapping.db_column]
                  (schemaPhase st job (buildColumnsDef syncCols job)).rows datas).filter
                  (fun r => !staleB job.id_mapping.db_column dm.db_column d2 ids r)⟩ : Table) rfl
            rw [hT3]
            dsimp only
            rw [hrepK, hdel]
            dsimp only
            have hidem : ((batchUpsert [job.id_mapping.db_column]
                (schemaPhase st job (buildColumnsDef syncCols job)).rows datas).filter
                  (fun r => !staleB job.id_mapping.db_column dm.db_column d2 ids r)).filter
                  (fun r => !staleB job.id_mapping.db_column dm.db_column d2 ids r) =
                (batchUpsert [job.id_mapping.db_column]
                  (schemaPhase st job (buildColumnsDef syncCols job)).rows datas).filter
                  (fun r => !staleB job.id_mapping.db_column dm.db_column d2 ids r) := by
              simp [List.filter_filter]
            have hzero : ((batchUpsert [job.id_mapping.db_column]
                (schemaPhase st job (buildColumnsDef syncCols job)).rows datas).filter
                  (fun r => !staleB job.id_mapping.db_column dm.db_column d2 ids r)).filter
                  (staleB job.id_mapping.db_column dm.db_column d2 ids) = [] := by
              apply List.filter_eq_nil_iff.2
              intro a ha
              have h3 := List.of_mem_filter ha
              simp only [Bool.not_eq_true'] at h3
              simp [h3]
            rw [hidem, hzero]
            rfl

theorem delete_stale_records_fst_schema (t : Table) (a b c : String)
    (ids : List String) :
    (delete_stale_records t a b c ids).1.schema = t.schema := by
  unfold delete_stale_records
  by_cases h : ids.isEmpty
  · rw [if_pos h]
  · rw [if_neg h]

/-- A successful sync's final schema is the schema the schema phase
produced (row upserts and the stale-delete pass never touch it). -/
theorem syncCsvFile_schema (csv : Csv) (job : SyncJob) (sync_date : Option String)
    (st : Option Table) (t' : Table) (n d : Nat)
    (h : syncCsvFile csv job sync_date st = Except.ok (some t', n, d)) :
    ∃ syncCols, buildSyncColumns csv.headers job = Except.ok syncCols ∧
      t'.schema = (schemaPhase st job (buildColumnsDef syncCols job)).schema := by
  unfold syncCsvFile at h
  rcases h1 : buildSyncColumns csv.headers job with e | syncCols
  · rw [h1] at h
    cases h
  · simp only [h1] at h
    rcases h2 : processRows syncCols job sync_date csv.rows with e | p
    · rw [h2] at h
      cases h
    · rcases p with ⟨datas, ids⟩
      simp only [h2] at h
      refine ⟨syncCols, rfl, ?_⟩
      rcases hdm : job.date_mapping with _ | dm
      · simp only [hdm] at h
        rcases sync_date with _ | d2
        · cases h
          rfl
        · cases h
          rfl
      · simp only [hdm] at h
        rcases sync_date with _ | d2
        · cases h
          rfl
        · dsimp only at h
          rcases h3 : delete_stale_records
              (⟨(schemaPhase st job (buildColumnsDef syncCols job)).schema,
                (schemaPhase st job (buildColumnsDef syncCols job)).primary_keys,
                batchUpsert [job.id_mapping.db_column]
                  (schemaPhase st job (buildColumnsDef syncCols job)).rows datas⟩ : Table)
              job.id_mapping.db_column dm.db_column d2 ids with ⟨T, cnt⟩
          rw [h3] at h
          cases h
          have h4 := delete_stale_records_fst_schema
            (⟨(schemaPhase st job (buildColumnsDef syncCols job)).schema,
              (schemaPhase st job (buildColumnsDef syncCols job)).primary_keys,
              batchUpsert [job.id_mapping.db_column]
                (schemaPhase st job (buildColumnsDef syncCols job)).rows datas⟩ : Table)
            job.id_mapping.db_column dm.db_column d2 ids
          rw [h3] at h4
          exact h4

/-- C6: before writing any rows, sync diffs the job's full destination
column set (each destination column typed via `map_data_type`, the date
column as `TEXT`) against the live table's existing columns compared
case-insensitively, and adds every absent destination column, so that
after a successful sync every destination column name is present
(lowercased) among the existing columns; columns already present in
the table before the sync are never altered, retyped, or dropped — the
prior schema survives as a prefix of the final schema, unchanged. -/
theorem C6_schema_evolution (csv : Csv) (job : SyncJob) (sync_date : Option String)
    (st : Option Table) (t' : Table) (n d : Nat)
    (h : syncCsvFile csv job sync_date st = Except.ok (some t', n, d)) :
    ∃ syncCols, buildSyncColumns csv.headers job = Except.ok syncCols ∧
      (∀ p ∈ buildColumnsDef syncCols job,
        pyLower p.1 ∈ get_existing_columns (some t')) ∧
      (∀ t0, st = some t0 → ∃ added, t'.schema = t0.schema ++ added) := by
  rcases syncCsvFile_schema csv job sync_date st t' n d h with ⟨syncCols, hsc, hschema⟩
  refine ⟨syncCols, hsc, ?_, ?_⟩
  · intro p hp
    have h3 := schemaPhase_covers st job (buildColumnsDef syncCols job) p hp
    have hsome : ∀ t : Table,
        get_existing_columns (some t) = (t.schema.map Prod.fst).map pyLower :=
      fun t => rfl
    rw [hsome, hschema]
    rw [hsome] at h3
    exact h3
  · intro t0 hst0
    rcases schemaPhase_schema_extends st job (buildColumnsDef syncCols job) with ⟨added, hadd⟩
    refine ⟨added, ?_⟩
    rw [hschema, hadd, hst0]
    rfl

theorem staleB_iff (idc dc d : String) (ids : List String) (r : Row) :
    staleB idc dc d ids r = true ↔
      (alookup r dc = some d ∧ ∃ v, alookup r idc = some v ∧ v ∉ ids) := by
  unfold staleB
  rcases h : alookup r idc with _ | v
  · simp
  · simp [h]

/-- C3: `delete_stale_records` is a no-op returning 0 when
`current_ids` is empty (never mass-deletes); otherwise it deletes
exactly the rows whose scope (date) column equals `sync_date` and
whose id value exists and is not in `current_ids`, returns the number
of such rows, leaves every row with any other scope value (or a `NULL`
scope) in place, and never touches the schema or primary key. -/
theorem C3_delete_stale_records (t : Table) (id_column date_column sync_date : String)
    (current_ids : List String) :
    (current_ids = [] →
      delete_stale_records t id_column date_column sync_date current_ids = (t, 0)) ∧
    (current_ids ≠ [] →
      (delete_stale_records t id_column date_column sync_date current_ids).1.rows =
        t.rows.filter
          (fun r => !staleB id_column date_column sync_date current_ids r) ∧
      (delete_stale_records t id_column date_column sync_date current_ids).2 =
        (t.rows.filter (staleB id_column date_column sync_date current_ids)).length) ∧
    (∀ r : Row, staleB id_column date_column sync_date current_ids r = true ↔
      (alookup r date_column = some sync_date ∧
        ∃ v, alookup r id_column = some v ∧ v ∉ current_ids)) ∧
    (∀ r ∈ t.rows, alookup r date_column ≠ some sync_date →
      r ∈ (delete_stale_records t id_column date_column sync_date current_ids).1.rows) ∧
    (delete_stale_records t id_column date_column sync_date current_ids).1.schema =
      t.schema ∧
    (delete_stale_records t id_column date_column sync_date current_ids).1.primary_keys =
      t.primary_keys := by
  refine ⟨?_, ?_, ?_, ?_, ?_, ?_⟩
  · intro h
    unfold delete_stale_records
    rw [if_pos (by rw [h]; rfl)]
  · intro h
    have hne : ¬ current_ids.isEmpty := by
      rcases current_ids with _ | ⟨x, l⟩
      · exact absurd rfl h
      · simp
    unfold delete_stale_records
    rw [if_neg hne]
    exact ⟨rfl, rfl⟩
  · intro r
    exact staleB_iff id_column date_column sync_date current_ids r
  · intro r hr hdate
    unfold delete_stale_records
    by_cases hempty : current_ids.isEmpty
    · rw [if_pos hempty]
      exact hr
    · rw [if_neg hempty]
      apply List.mem_filter.2
      refine ⟨hr, ?_⟩
      simp only [Bool.not_eq_true']
      rcases h2 : staleB id_column date_column sync_date current_ids r with _ | _
      · rfl
      · exact absurd ((staleB_iff _ _ _ _ r).1 h2).1 hdate
  · exact delete_stale_records_fst_schema t _ _ _ _
  · unfold delete_stale_records
    by_cases hempty : current_ids.isEmpty
    · rw [if_pos hempty]
    · rw [if_neg hempty]

theorem akeys_wrWrites_mem (pk : List String) (u : Row) (c : String)
    (hc : c ∈ akeys u) (hnp : c ∉ pk) : c ∈ akeys (wrWrites pk u) := by
  unfold akeys at hc ⊢
  rcases List.mem_map.1 hc with ⟨p, hp, he⟩
  subst he
  exact List.mem_map.2 ⟨p, List.mem_filter.2 ⟨hp, by simpa using hnp⟩, rfl⟩

/-- C5: `upsert_row` resolves a conflict on exactly the given conflict
(primary-key) columns with an update whose `SET` list is the inserted
columns minus the conflict columns, so that upserting a changed value
for an existing (possibly compound) key updates exactly the first
conflicting row — the row count stays constant, every other row is
untouched, the conflict columns of the updated row keep their values,
its columns named in the payload take the payload's values, and its
remaining columns are unchanged. -/
theorem C5_upsert_conflict_update (t : Table) (conflict : List String) (u : Row)
    (i : Nat) (hu : NoDupKeys u) (h : firstIdx conflict u t.rows = some i) :
    (∀ (cols : List String) (c : String),
      c ∈ updateSetColumns cols conflict ↔ (c ∈ cols ∧ c ∉ conflict)) ∧
    (upsert_row t conflict u).rows.length = t.rows.length ∧
    (upsert_row t conflict u).rows =
      t.rows.set i (applyUpd conflict (t.rows.getD i []) u) ∧
    (∀ j, j ≠ i → (upsert_row t conflict u).rows.getD j [] = t.rows.getD j []) ∧
    (∀ c ∈ conflict, alookup ((upsert_row t conflict u).rows.getD i []) c =
      alookup (t.rows.getD i []) c) ∧
    (∀ c ∈ akeys u, c ∉ conflict →
      alookup ((upsert_row t conflict u).rows.getD i []) c = alookup u c) ∧
    (∀ c, c ∉ akeys u → alookup ((upsert_row t conflict u).rows.getD i []) c =
      alookup (t.rows.getD i []) c) := by
  have hrows : (upsert_row t conflict u).rows =
      t.rows.set i (applyUpd conflict (t.rows.getD i []) u) := by
    unfold upsert_row upsert1
    rw [h]
  have hlt : i < t.rows.length := firstIdx_lt conflict u t.rows i h
  have hgetD : (upsert_row t conflict u).rows.getD i [] =
      applyUpd conflict (t.rows.getD i []) u := by
    rw [hrows]
    exact getD_set_self t.rows i _ [] hlt
  refine ⟨?_, ?_, hrows, ?_, ?_, ?_, ?_⟩
  · intro cols c
    unfold updateSetColumns
    simp [List.mem_filter]
  · rw [hrows, List.length_set]
  · intro j hj
    rw [hrows]
    exact getD_set_ne t.rows i j _ [] (fun h2 => hj h2.symm)
  · intro c hc
    rw [hgetD]
    exact alookup_applyUpd_pk conflict _ u c hc
  · intro c hc hnp
    rw [hgetD]
    unfold applyUpd
    rw [alookup_rowApply_mem _ _ c (akeys_wrWrites_mem conflict u c hc hnp)]
    rw [alookup_reverse_of_nodup _ c (NoDupKeys_wrWrites conflict u hu)]
    exact alookup_wrWrites conflict u c hnp
  · intro c hc
    rw [hgetD]
    unfold applyUpd
    apply alookup_rowApply_not_mem
    intro h2
    exact hc (((sublist_akeys_wrWrites conflict u).subset) h2)

/-- C9: `detect_column_type` classifies the sampled (first 1000,
non-blank) values in the priority order integer → float → date →
datetime → `varchar(N)` with `N` the maximum observed string length
when `N ≤ 255` → `text`; an empty or all-blank sample defaults to
`text`.  With `N = 255` this yields `varchar(255)`, with `N = 256` it
yields `text`. -/
theorem C9_detect_column_type (values : List (List Char)) :
    (values = [] → detect_column_type values = "text") ∧
    ((values.take 1000).filter (fun v => !(pyStrip v).isEmpty) = [] →
      detect_column_type values = "text") ∧
    ((values.take 1000).filter (fun v => !(pyStrip v).isEmpty) ≠ [] →
      ((∀ v ∈ (values.take 1000).filter (fun v => !(pyStrip v).isEmpty), isPyInt v = true) →
        detect_column_type values = "integer") ∧
      (¬ (∀ v ∈ (values.take 1000).filter (fun v => !(pyStrip v).isEmpty), isPyInt v = true) →
        (∀ v ∈ (values.take 1000).filter (fun v => !(pyStrip v).isEmpty), isPyFloat v = true) →
        detect_column_type values = "float") ∧
      (¬ (∀ v ∈ (values.take 1000).filter (fun v => !(pyStrip v).isEmpty), isPyInt v = true) →
        ¬ (∀ v ∈ (values.take 1000).filter (fun v => !(pyStrip v).isEmpty), isPyFloat v = true) →
        (∀ v ∈ (values.take 1000).filter (fun v => !(pyStrip v).isEmpty), isDateVal v = true) →
        detect_column_type values = "date") ∧
      (¬ (∀ v ∈ (values.take 1000).filter (fun v => !(pyStrip v).isEmpty), isPyInt v = true) →
        ¬ (∀ v ∈ (values.take 1000).filter (fun v => !(pyStrip v).isEmpty), isPyFloat v = true) →
        ¬ (∀ v ∈ (values.take 1000).filter (fun v => !(pyStrip v).isEmpty), isDateVal v = true) →
        (∀ v ∈ (values.take 1000).filter (fun v => !(pyStrip v).isEmpty), isDatetimeVal v = true) →
        detect_column_type values = "datetime") ∧
      (¬ (∀ v ∈ (values.take 1000).filter (fun v => !(pyStrip v).isEmpty), isPyInt v = true) →
        ¬ (∀ v ∈ (values.take 1000).filter (fun v => !(pyStrip v).isEmpty), isPyFloat v = true) →
        ¬ (∀ v ∈ (values.take 1000).filter (fun v => !(pyStrip v).isEmpty), isDateVal v = true) →
        ¬ (∀ v ∈ (values.take 1000).filter (fun v => !(pyStrip v).isEmpty), isDatetimeVal v = true) →
        maxLen ((values.take 1000).filter (fun v => !(pyStrip v).isEmpty)) ≤ 255 →
        detect_column_type values =
          "varchar(" ++ toString (maxLen ((values.take 1000).filter
            (fun v => !(pyStrip v).isEmpty))) ++ ")") ∧
      (¬ (∀ v ∈ (values.take 1000).filter (fun v => !(pyStrip v).isEmpty), isPyInt v = true) →
        ¬ (∀ v ∈ (values.take 1000).filter (fun v => !(pyStrip v).isEmpty), isPyFloat v = true) →
        ¬ (∀ v ∈ (values.take 1000).filter (fun v => !(pyStrip v).isEmpty), isDateVal v = true) →
        ¬ (∀ v ∈ (values.take 1000).filter (fun v => !(pyStrip v).isEmpty), isDatetimeVal v = true) →
        255 < maxLen ((values.take 1000).filter (fun v => !(pyStrip v).isEmpty)) →
        detect_column_type values = "text")) := by
  unfold detect_column_type
  by_cases hval : values.isEmpty
  · have hval2 : values = [] := by
      rcases values with _ | ⟨x, l⟩
      · rfl
      · cases hval
    subst hval2
    refine ⟨fun _ => rfl, fun _ => rfl, fun h => absurd (by simp) h⟩
  · have hval2 : values ≠ [] := by
      intro h2
      rw [h2] at hval
      exact hval rfl
    rw [if_neg hval]
    simp only []
    by_cases hne : ((values.take 1000).filter (fun v => !(pyStrip v).isEmpty)).isEmpty
    · have hne2 : (values.take 1000).filter (fun v => !(pyStrip v).isEmpty) = [] := by
        rcases hx : (values.take 1000).filter (fun v => !(pyStrip v).isEmpty) with _ | ⟨x, l⟩
        · rfl
        · rw [hx] at hne; cases hne
      rw [if_pos hne]
      exact ⟨fun _ => rfl, fun _ => rfl, fun h => absurd hne2 h⟩
    · have hne2 : (values.take 1000).filter (fun v => !(pyStrip v).isEmpty) ≠ [] := by
        intro h2
        rw [h2] at hne
        exact hne rfl
      rw [if_neg hne]
      refine ⟨fun h => absurd h hval2, fun h => absurd h hne2,
        fun _ => ⟨?_, ?_, ?_, ?_, ?_, ?_⟩⟩
      · intro h1
        rw [if_pos (List.all_eq_true.2 h1)]
      · intro h1 h2
        rw [if_neg (fun h3 => h1 (List.all_eq_true.1 h3)),
          if_pos (List.all_eq_true.2 h2)]
      · intro h1 h2 h3
        rw [if_neg (fun h4 => h1 (List.all_eq_true.1 h4)),
          if_neg (fun h4 => h2 (List.all_eq_true.1 h4)),
          if_pos (List.all_eq_true.2 h3)]
      · intro h1 h2 h3 h4
        rw [if_neg (fun h5 => h1 (List.all_eq_true.1 h5)),
          if_neg (fun h5 => h2 (List.all_eq_true.1 h5)),
          if_neg (fun h5 => h3 (List.all_eq_true.1 h5)),
          if_pos (List.all_eq_true.2 h4)]
      · intro h1 h2 h3 h4 h5
        rw [if_neg (fun h6 => h1 (List.all_eq_true.1 h6)),
          if_neg (fun h6 => h2 (List.all_eq_true.1 h6)),
          if_neg (fun h6 => h3 (List.all_eq_true.1 h6)),
          if_neg (fun h6 => h4 (List.all_eq_true.1 h6)),
          if_pos h5]
      · intro h1 h2 h3 h4 h5
        rw [if_neg (fun h6 => h1 (List.all_eq_true.1 h6)),
          if_neg (fun h6 => h2 (List.all_eq_true.1 h6)),
          if_neg (fun h6 => h3 (List.all_eq_true.1 h6)),
          if_neg (fun h6 => h4 (List.all_eq_true.1 h6)),
          if_neg (by omega)]

/-- Witness for C9: a single three-character non-numeric value is
classified as `varchar(3)`. -/
theorem C9_detect_column_type_witness :
    detect_column_type [['a', 'b', 'c']] = "varchar(3)" := by
  have h := ((C9_detect_column_type [['a', 'b', 'c']]).2.2 (by decide)).2.2.2.2.1
    (by decide) (by decide) (by decide) (by decide) (by decide)
  exact h.trans (by rfl)

/-! ### C7 lemma layer: grouping, sorting, merging -/

/-- Unfolding `List.lookup` over a cons with Nat keys. -/
lemma lookup_cons_nat (k n : Nat) (g : List CDFVariable)
    (t : List (Nat × List CDFVariable)) :
    ((k, g) :: t).lookup n = if n = k then some g else t.lookup n := by
  by_cases h : n = k
  · subst h
    simp [List.lookup]
  · have hb : (n == k) = false := by simpa using h
    simp [List.lookup, hb, h]

/-- Lookup in an assoc list with Nat keys distributes over append. -/
lemma lookup_append_nat (l1 l2 : List (Nat × List CDFVariable)) (n : Nat) :
    (l1 ++ l2).lookup n =
      match l1.lookup n with
      | some g => some g
      | none => l2.lookup n := by
  induction l1 with
  | nil => rfl
  | cons p t ih =>
    rcases p with ⟨k, g⟩
    rw [List.cons_append, lookup_cons_nat, lookup_cons_nat]
    by_cases h : n = k
    · rw [if_pos h, if_pos h]
    · rw [if_neg h, if_neg h, ih]

/-- Lookup after a key-preserving in-place update of the group with key
`c`. -/
lemma lookup_mapUpdate (acc : List (Nat × List CDFVariable)) (c : Nat)
    (G : List CDFVariable) (n : Nat) :
    (acc.map (fun p => if p.1 = c then (p.1, G) else p)).lookup n =
      if n = c then (acc.lookup n).map (fun _ => G) else acc.lookup n := by
  induction acc with
  | nil => simp [List.lookup]
  | cons p t ih =>
    rcases p with ⟨k, g⟩
    have hstep : List.map (fun p => if p.1 = c then (p.1, G) else p) ((k, g) :: t)
        = (if k = c then ((k : Nat), G) else (k, g)) ::
            List.map (fun p => if p.1 = c then (p.1, G) else p) t := by
      simp only [List.map_cons]
    rw [hstep]
    by_cases hkc : k = c
    · rw [if_pos hkc, lookup_cons_nat, lookup_cons_nat]
      by_cases hn : n = k
      · rw [if_pos hn, if_pos hn, if_pos (hn.trans hkc)]
        rfl
      · rw [if_neg hn, if_neg hn, ih]
    · rw [if_neg hkc, lookup_cons_nat, lookup_cons_nat]
      by_cases hn : n = k
      · rw [if_pos hn, if_pos hn, if_neg (fun h => hkc ((hn.symm.trans h)))]
      · rw [if_neg hn, if_neg hn, ih]

/-- A `none` lookup means the key is absent. -/
lemma lookup_eq_none_iff_nat (l : List (Nat × List CDFVariable)) (n : Nat) :
    l.lookup n = none ↔ n ∉ l.map Prod.fst := by
  induction l with
  | nil => simp [List.lookup]
  | cons p t ih =>
    rcases p with ⟨k, g⟩
    rw [lookup_cons_nat]
    by_cases h : n = k
    · subst h
      simp
    · rw [if_neg h]
      simp [h, ih]

/-- With distinct keys, membership determines lookup. -/
lemma lookup_of_mem_nodup (l : List (Nat × List CDFVariable))
    (p : Nat × List CDFVariable) (hn : (l.map Prod.fst).Nodup)
    (hm : p ∈ l) : l.lookup p.1 = some p.2 := by
  induction l with
  | nil => cases hm
  | cons q t ih =>
    rcases q with ⟨k, g⟩
    rw [lookup_cons_nat]
    rcases List.mem_cons.1 hm with h | h
    · subst h
      rw [if_pos rfl]
    · have hq : p.1 ≠ k := by
        intro he
        have : k ∈ t.map Prod.fst := he ▸ List.mem_map_of_mem Prod.fst h
        exact (List.nodup_cons.1 (by simpa using hn)).1 this
      have ht : (t.map Prod.fst).Nodup := (List.nodup_cons.1 (by simpa using hn)).2
      rw [if_neg hq, ih ht h]

/-- Effect of one grouping step on lookups. -/
lemma gStep_lookup (acc : List (Nat × List CDFVariable)) (v : CDFVariable)
    (n : Nat) :
    (gStep acc v).lookup n =
      if n = v.num_records then some ((acc.lookup n).getD [] ++ [v])
      else acc.lookup n := by
  unfold gStep
  cases h : acc.lookup v.num_records with
  | none =>
    rw [lookup_append_nat]
    by_cases hn : n = v.num_records
    · subst hn
      rw [h, if_pos rfl, lookup_cons_nat, if_pos rfl]
      rfl
    · rw [if_neg hn]
      cases hl : acc.lookup n with
      | none =>
        rw [lookup_cons_nat, if_neg hn]
        rfl
      | some g => rfl
  | some g =>
    rw [lookup_mapUpdate]
    by_cases hn : n = v.num_records
    · subst hn
      rw [h, if_pos rfl, if_pos rfl]
      rfl
    · rw [if_neg hn, if_neg hn]

/-- Effect of one grouping step on the key list. -/
lemma gStep_keys (acc : List (Nat × List CDFVariable)) (v : CDFVariable) :
    (gStep acc v).map Prod.fst =
      match acc.lookup v.num_records with
      | none => acc.map Prod.fst ++ [v.num_records]
      | some _ => acc.map Prod.fst := by
  unfold gStep
  cases h : acc.lookup v.num_records with
  | none => simp
  | some g =>
    simp only [List.map_map]
    refine List.map_congr_left (fun p _ => ?_)
    by_cases hp : p.1 = v.num_records
    · simp [hp]
    · simp [hp]

/-- Characterization of the grouping fold: the group found under key
`n` is the accumulator's group followed by all processed variables with
record count `n`. -/
lemma gFold_lookup (vars : List CDFVariable)
    (acc : List (Nat × List CDFVariable)) (n : Nat) :
    (vars.foldl gStep acc).lookup n =
      match acc.lookup n, vars.filter (fun v => v.num_records = n) with
      | none, [] => none
      | none, l => some l
      | some g, l => some (g ++ l) := by
  induction vars generalizing acc with
  | nil =>
    cases h : acc.lookup n with
    | none => simp [h]
    | some g => simp [h]
  | cons v t ih =>
    rw [List.foldl_cons, ih]
    rw [gStep_lookup]
    by_cases hc : n = v.num_records
    · rw [if_pos hc]
      have hf : (v :: t).filter (fun v => v.num_records = n)
          = v :: t.filter (fun v => v.num_records = n) := by
        simp [List.filter_cons, hc.symm]
      rw [hf]
      cases h : acc.lookup n with
      | none =>
        cases ht : t.filter (fun v => v.num_records = n) with
        | nil => simp [h]
        | cons x xs => simp [h]
      | some g =>
        simp [h, List.append_assoc]
    · rw [if_neg hc]
      have hf : (v :: t).filter (fun v => v.num_records = n)
          = t.filter (fun v => v.num_records = n) := by
        have hc2 : ¬v.num_records = n := fun h => hc h.symm
        simp [List.filter_cons, hc2]
      rw [hf]

/-- The grouping fold keeps the key list duplicate-free. -/
lemma gFold_nodup (vars : List CDFVariable)
    (acc : List (Nat × List CDFVariable))
    (h : (acc.map Prod.fst).Nodup) :
    (((vars.foldl gStep acc)).map Prod.fst).Nodup := by
  induction vars generalizing acc with
  | nil => exact h
  | cons v t ih =>
    rw [List.foldl_cons]
    refine ih _ ?_
    rw [gStep_keys]
    cases hl : acc.lookup v.num_records with
    | none =>
      have hnotin : v.num_records ∉ acc.map Prod.fst :=
        (lookup_eq_none_iff_nat acc v.num_records).1 hl
      simpa using List.Nodup.append h (by simp) (by simpa using hnotin)
    | some g => exact h

/-- `insertDesc` is a permutation of consing. -/
lemma insertDesc_perm (p : Nat × List CDFVariable)
    (l : List (Nat × List CDFVariable)) :
    List.Perm (insertDesc p l) (p :: l) := by
  induction l with
  | nil => exact List.Perm.refl _
  | cons q t ih =>
    rw [insertDesc]
    by_cases h : q.1 ≤ p.1
    · rw [if_pos h]
    · rw [if_neg h]
      exact List.Perm.trans (List.Perm.cons q ih) (List.Perm.swap p q t)

/-- Sorting the groups by descending record count is a permutation. -/
lemma sortGroupsDesc_perm (gs : List (Nat × List CDFVariable)) :
    List.Perm (sortGroupsDesc gs) gs := by
  induction gs with
  | nil => exact List.Perm.refl _
  | cons p t ih =>
    have h1 : sortGroupsDesc (p :: t) = insertDesc p (sortGroupsDesc t) := rfl
    rw [h1]
    exact List.Perm.trans (insertDesc_perm p (sortGroupsDesc t))
      (List.Perm.cons p ih)

/-- The first component of an expanded variable is its column-name
list. -/
lemma expand_fst (v : CDFVariable) (mr : Option Nat) :
    (expand_variable_to_columns v mr).1 = get_column_names_for_variable v := by
  unfold expand_variable_to_columns
  by_cases h : v.is_array
  · simp [h]
  · simp [h]

/-- The record count actually extracted is the record count clipped at
`max_records`. -/
lemma expand_actual (v : CDFVariable) (mr : Option Nat) :
    (expand_variable_to_columns v mr).2.2 =
      match mr with
      | none => v.num_records
      | some m => min v.num_records m := by
  unfold expand_variable_to_columns
  by_cases h : v.is_array
  · simp [h]
  · simp [h]

/-- A variable expands to `expandedWidth` column names. -/
lemma get_column_names_length (v : CDFVariable) :
    (get_column_names_for_variable v).length = expandedWidth v := by
  unfold get_column_names_for_variable expandedWidth
  by_cases h : v.is_array
  · simp [h]
  · simp [h]

/-- Renaming for uniqueness preserves the number of columns. -/
lemma makeUniqueAux_length (l : List String) :
    ∀ seen, (makeUniqueAux seen l).length = l.length := by
  induction l with
  | nil => intro seen; rfl
  | cons n rest ih =>
    intro seen
    rw [makeUniqueAux]
    cases alookup seen n with
    | none => simp [ih]
    | some k => simp [ih]

/-- Folding `min` over copies of the base leaves the base. -/
lemma foldl_min_const (a : Nat) (l : List Nat) (h : ∀ b ∈ l, b = a) :
    l.foldl min a = a := by
  induction l with
  | nil => rfl
  | cons x t ih =>
    rw [List.foldl_cons, h x (List.mem_cons_self x t), Nat.min_self]
    exact ih (fun b hb => h b (List.mem_cons_of_mem x hb))

/-- Length of the flattened column-name lists. -/
lemma length_flatMap_cols (l : List (List String × List (List String) × Nat)) :
    (l.flatMap (fun e => e.1)).length = (l.map (fun e => e.1.length)).sum := by
  induction l with
  | nil => rfl
  | cons x t ih => simp [List.flatMap_cons, ih]

/-- Each produced group holds exactly the input variables with its
record count, in input order, and is nonempty. -/
lemma group_mem_eq (vars : List CDFVariable) (p : Nat × List CDFVariable)
    (hp : p ∈ group_variables_by_record_count vars) :
    p.2 = vars.filter (fun v => v.num_records = p.1) ∧
    vars.filter (fun v => v.num_records = p.1) ≠ [] := by
  have hnodup : ((group_variables_by_record_count vars).map Prod.fst).Nodup :=
    gFold_nodup vars [] (by simp)
  have hl := lookup_of_mem_nodup _ p hnodup hp
  have hc := gFold_lookup vars [] p.1
  rw [show group_variables_by_record_count vars = vars.foldl gStep [] from rfl] at hl
  rw [hl] at hc
  cases hf : vars.filter (fun v => v.num_records = p.1) with
  | nil =>
    rw [hf] at hc
    exact absurd hc (by simp [List.lookup])
  | cons x xs =>
    rw [hf] at hc
    have h2 : some p.2 = some (x :: xs) := hc
    exact ⟨Option.some.inj h2, by simp⟩

/-- The group keys are exactly the record counts occurring in the
input. -/
lemma group_keys_iff (vars : List CDFVariable) (n : Nat) :
    n ∈ (group_variables_by_record_count vars).map Prod.fst ↔
      ∃ v ∈ vars, v.num_records = n := by
  have h1 : (vars.foldl gStep []).lookup n = none ↔
      vars.filter (fun v => v.num_records = n) = [] := by
    rw [gFold_lookup]
    cases hf : vars.filter (fun v => v.num_records = n) with
    | nil => simp [List.lookup]
    | cons x xs => simp [List.lookup]
  rw [← not_not (a := n ∈ _), ← lookup_eq_none_iff_nat,
    show group_variables_by_record_count vars = vars.foldl gStep [] from rfl, h1,
    List.filter_eq_nil_iff]
  simp

/-- Automerge produces one table per group with record count at least
two. -/
lemma automergeTables_length (vars : List CDFVariable) (mr : Option Nat) :
    (automergeTables vars mr).length =
      ((group_variables_by_record_count vars).filter (fun g => 2 ≤ g.1)).length := by
  unfold automergeTables
  simp only []
  rw [List.length_map]
  exact (List.Perm.filter _ (sortGroupsDesc_perm _)).length_eq

/-- C7: in automerge mode variables are grouped by identical record
count (each group collects exactly the input variables with that count,
one group per occurring count); every group with record count at least
2 becomes exactly one logical table whose column count is the sum of
the members' expanded widths and whose row count is the per-variable
record count actually extracted after `max_records` truncation, while
groups with record count below 2 are dropped; variables with record
counts `[1440, 1440, 3]` produce exactly 2 logical tables. -/
theorem C7_cdf_automerge (vars : List CDFVariable) (mr : Option Nat) :
    (∀ p ∈ group_variables_by_record_count vars,
        p.2 = vars.filter (fun v => v.num_records = p.1)) ∧
    (∀ n, n ∈ (group_variables_by_record_count vars).map Prod.fst ↔
        ∃ v ∈ vars, v.num_records = n) ∧
    ((group_variables_by_record_count vars).map Prod.fst).Nodup ∧
    (automergeTables vars mr).length =
      ((group_variables_by_record_count vars).filter (fun g => 2 ≤ g.1)).length ∧
    (∀ T ∈ automergeTables vars mr, ∃ n, 2 ≤ n ∧
        (∃ v ∈ vars, v.num_records = n) ∧
        T.variable_names =
          (vars.filter (fun v => v.num_records = n)).map (fun v => v.name) ∧
        T.column_names.length =
          ((vars.filter (fun v => v.num_records = n)).map expandedWidth).sum ∧
        T.num_rows = (match mr with | none => n | some m => min n m)) ∧
    (∀ T ∈ automergeTables vars mr, ∀ nm ∈ T.variable_names,
        ∃ v ∈ vars, v.name = nm ∧ 2 ≤ v.num_records) ∧
    (vars.map (fun v => v.num_records) = [1440, 1440, 3] →
        (automergeTables vars mr).length = 2) := by
  have htab : ∀ T ∈ automergeTables vars mr, ∃ n, 2 ≤ n ∧
      (∃ v ∈ vars, v.num_records = n) ∧
      T.variable_names =
        (vars.filter (fun v => v.num_records = n)).map (fun v => v.name) ∧
      T.column_names.length =
        ((vars.filter (fun v => v.num_records = n)).map expandedWidth).sum ∧
      T.num_rows = (match mr with | none => n | some m => min n m) := by
    intro T hT
    unfold automergeTables at hT
    simp only [] at hT
    rcases List.mem_map.1 hT with ⟨g, hg, hTg⟩
    have hgf : g ∈ sortGroupsDesc (group_variables_by_record_count vars) :=
      List.mem_of_mem_filter hg
    have hg2 : 2 ≤ g.1 := by simpa using List.of_mem_filter hg
    have hgg : g ∈ group_variables_by_record_count vars :=
      (sortGroupsDesc_perm _).mem_iff.1 hgf
    obtain ⟨hgeq, hgne⟩ := group_mem_eq vars g hgg
    have hexists : ∃ v ∈ vars, v.num_records = g.1 := by
      rcases List.exists_mem_of_ne_nil _ hgne with ⟨x, hx⟩
      exact ⟨x, List.mem_of_mem_filter hx, by simpa using List.of_mem_filter hx⟩
    have hall : ∀ v ∈ g.2, v.num_records = g.1 := by
      intro v hv
      rw [hgeq] at hv
      simpa using List.of_mem_filter hv
    subst hTg
    clear hT hg hgf hgg
    refine ⟨g.1, hg2, hexists, ?_, ?_, ?_⟩
    · show g.2.map (fun v => v.name) = _
      rw [hgeq]
    · show (make_unique_column_names
        ((g.2.map (fun v => expand_variable_to_columns v mr)).flatMap
          (fun e => e.1))).length = _
      rw [show ∀ l, make_unique_column_names l = makeUniqueAux [] l from fun _ => rfl,
        makeUniqueAux_length, length_flatMap_cols, List.map_map, ← hgeq]
      congr 1
      refine List.map_congr_left (fun v _ => ?_)
      show (expand_variable_to_columns v mr).1.length = expandedWidth v
      rw [expand_fst, get_column_names_length]
    · show (match (g.2.map (fun v => expand_variable_to_columns v mr)).map
          (fun e => e.2.2) with
        | [] => 0
        | a :: t => t.foldl min a) = _
      rcases hg2l : g.2 with _ | ⟨x, xs⟩
      · rw [hg2l] at hgeq
        exact absurd hgeq.symm hgne
      · have hxa : (expand_variable_to_columns x mr).2.2 =
            (match mr with | none => g.1 | some m => min g.1 m) := by
          rw [expand_actual, hall x (hg2l ▸ List.mem_cons_self x xs)]
        simp only [hg2l, List.map_cons]
        rw [hxa]
        refine foldl_min_const _ _ ?_
        intro b hb
        simp only [List.map_map, List.mem_map] at hb
        rcases hb with ⟨v, hv, hbv⟩
        rw [← hbv]
        show (expand_variable_to_columns v mr).2.2 = _
        rw [expand_actual, hall v (hg2l ▸ List.mem_cons_of_mem x hv)]
  refine ⟨fun p hp => (group_mem_eq vars p hp).1, group_keys_iff vars,
    gFold_nodup vars [] (by simp), automergeTables_length vars mr, htab,
    ?_, ?_⟩
  · intro T hT nm hnm
    rcases htab T hT with ⟨n, hn2, _, hnames, _, _⟩
    rw [hnames] at hnm
    rcases List.mem_map.1 hnm with ⟨v, hv, hvnm⟩
    refine ⟨v, List.mem_of_mem_filter hv, hvnm, ?_⟩
    have hvn : v.num_records = n := by simpa using List.of_mem_filter hv
    rw [hvn]
    exact hn2
  · intro hmap
    rcases vars with _ | ⟨a, _ | ⟨b, _ | ⟨c, _ | ⟨d, t⟩⟩⟩⟩
    · simp at hmap
    · simp at hmap
    · simp at hmap
    case cons.cons.cons.cons => simp at hmap
    simp only [List.map_cons, List.map_nil, List.cons.injEq, and_true] at hmap
    obtain ⟨ha, hb, hc3⟩ := hmap
    rw [automergeTables_length]
    have hgroups : group_variables_by_record_count [a, b, c] =
        [(1440, [a, b]), (3, [c])] := by
      unfold group_variables_by_record_count
      simp only [List.foldl_cons, List.foldl_nil]
      rw [show gStep [] a = [(a.num_records, [a])] from rfl, ha]
      rw [show gStep [(1440, [a])] b =
          (match List.lookup b.num_records [(1440, [a])] with
          | none => [(1440, [a])] ++ [(b.num_records, [b])]
          | some g => List.map
              (fun p => if p.1 = b.num_records then (p.1, g ++ [b]) else p)
              [(1440, [a])]) from rfl, hb]
      rw [show (List.lookup 1440 [(1440, [a])] : Option (List CDFVariable))
          = some [a] from rfl]
      simp only []
      have hred : List.map (fun p => if p.1 = 1440 then (p.1, [a] ++ [b]) else p)
          [(1440, [a])] = [(1440, [a, b])] := by simp
      rw [hred]
      rw [show gStep [(1440, [a, b])] c =
          (match List.lookup c.num_records [(1440, [a, b])] with
          | none => [(1440, [a, b])] ++ [(c.num_records, [c])]
          | some g => List.map
              (fun p => if p.1 = c.num_records then (p.1, g ++ [c]) else p)
              [(1440, [a, b])]) from rfl, hc3]
      rfl
    rw [hgroups]
    rfl

/-- Witness for C7: three concrete variables with record counts 1440,
1440 and 3 automerge into exactly two logical tables. -/
theorem C7_cdf_automerge_witness :
    (automergeTables
      [⟨"epoch", 1440, false, 0, []⟩, ⟨"flux", 1440, true, 3, []⟩,
        ⟨"mode", 3, false, 0, []⟩] none).length = 2 :=
  (C7_cdf_automerge
    [⟨"epoch", 1440, false, 0, []⟩, ⟨"flux", 1440, true, 3, []⟩,
      ⟨"mode", 3, false, 0, []⟩] none).2.2.2.2.2.2 (by rfl)

/-! ### C8 lemma layer: template round-trip under separation -/

/-- A nonempty literal whose head differs from the text's head is not a
prefix. -/
lemma isPrefixOf_false_of_head (a : Char) (l : List Char) (x : Char)
    (t : List Char) (hax : a ≠ x) :
    (a :: l).isPrefixOf (x :: t) = false := by
  simp [List.isPrefixOf, hax]

/-- Lazy hole scanning consumes exactly the substituted value when the
value avoids the following literal's characters: the first position
where the following segments match again is the value's end. -/
lemma holeMatch_subst (n : String) (l : List Char) (rest2 : List TSeg)
    (bs : List (String × List Char)) (T : List Char) :
    ∀ rem acc, rem ≠ [] →
    (∀ c ∈ rem, c ≠ '\n') →
    (∀ c ∈ rem, c ∉ l) →
    l ≠ [] →
    segsMatch (TSeg.lit l :: rest2) T = some bs →
    holeMatch n (TSeg.lit l :: rest2) acc (rem ++ T) =
      some ((n, acc ++ rem) :: bs) := by
  intro rem
  induction rem with
  | nil => intro acc h; exact absurd rfl h
  | cons c rem2 ih =>
    intro acc _ hnl hsepc hl hT
    rw [List.cons_append]
    simp only [holeMatch]
    rw [if_neg (by simpa using hnl c (List.mem_cons_self c rem2))]
    cases rem2 with
    | nil =>
      simp only [List.nil_append]
      rw [hT]
    | cons c2 rem3 =>
      have hc2 : c2 ∉ l := hsepc c2 (List.mem_cons_of_mem c (List.mem_cons_self c2 rem3))
      have hnone : segsMatch (TSeg.lit l :: rest2) ((c2 :: rem3) ++ T) = none := by
        rcases l with _ | ⟨a, l2⟩
        · exact absurd rfl hl
        · simp only [segsMatch, List.cons_append]
          rw [if_neg ?ha]
          case ha =>
            rw [isPrefixOf_false_of_head a l2 c2 (rem3 ++ T)
              (fun hax => hc2 (hax ▸ List.mem_cons_self a l2))]
            simp
      rw [hnone]
      have hres := ih (acc ++ [c]) (by simp)
        (fun d hd => hnl d (List.mem_cons_of_mem c hd))
        (fun d hd => hsepc d (List.mem_cons_of_mem c hd)) hl hT
      rw [hres]
      simp

/-- Matching a compiled template against its own substitution recovers
exactly the substituted values, for separated templates and values that
are nonempty, newline-free and avoid the template's literal
characters.  Trailing text is unconstrained. -/
lemma segsMatch_subst (segs : List TSeg) (σ : String → List Char)
    (suffix : List Char) (hsep : sepOk segs = true)
    (hvals : ∀ nm ∈ holeNames segs, σ nm ≠ [] ∧
      ∀ c ∈ σ nm, c ≠ '\n' ∧ c ∉ litChars segs) :
    segsMatch segs (substTemplate segs σ ++ suffix) =
      some ((holeNames segs).map (fun nm => (nm, σ nm))) := by
  induction segs with
  | nil => simp [segsMatch, holeNames, substTemplate]
  | cons s rest ih =>
    cases s with
    | lit l =>
      have hsub : substTemplate (TSeg.lit l :: rest) σ =
          l ++ substTemplate rest σ := by
        simp [substTemplate]
      rw [hsub, List.append_assoc]
      simp only [segsMatch]
      rw [if_pos (List.isPrefixOf_iff_prefix.2 (List.prefix_append l _)),
        List.drop_left]
      have hrest : sepOk rest = true := by
        rw [sepOk] at hsep
        exact hsep
      have hvals2 : ∀ nm ∈ holeNames rest, σ nm ≠ [] ∧
          ∀ c ∈ σ nm, c ≠ '\n' ∧ c ∉ litChars rest := by
        intro nm hnm
        have h := hvals nm (by rw [holeNames]; exact hnm)
        refine ⟨h.1, fun c hc => ⟨(h.2 c hc).1, fun hcl => (h.2 c hc).2 ?_⟩⟩
        rw [litChars]
        exact List.mem_append_right l hcl
      rw [ih hrest hvals2]
      rw [show holeNames (TSeg.lit l :: rest) = holeNames rest from rfl]
    | hole n =>
      cases rest with
      | nil => simp [sepOk] at hsep
      | cons s2 rest2 =>
        cases s2 with
        | hole m => simp [sepOk] at hsep
        | lit l =>
          rw [sepOk] at hsep
          have hl : l ≠ [] := by
            intro h
            rw [h] at hsep
            simp at hsep
          have hsep2 : sepOk (TSeg.lit l :: rest2) = true := by
            simp only [Bool.and_eq_true] at hsep
            exact hsep.2
          have hsub : substTemplate (TSeg.hole n :: TSeg.lit l :: rest2) σ =
              σ n ++ substTemplate (TSeg.lit l :: rest2) σ := by
            simp [substTemplate]
          rw [hsub, List.append_assoc]
          simp only [segsMatch]
          obtain ⟨hne, hcs⟩ := hvals n (by rw [holeNames]; exact List.mem_cons_self n _)
          have hvals2 : ∀ nm ∈ holeNames (TSeg.lit l :: rest2), σ nm ≠ [] ∧
              ∀ c ∈ σ nm, c ≠ '\n' ∧ c ∉ litChars (TSeg.lit l :: rest2) := by
            intro nm hnm
            have h := hvals nm (by
              rw [holeNames]
              exact List.mem_cons_of_mem n hnm)
            exact ⟨h.1, fun c hc => ⟨(h.2 c hc).1, (h.2 c hc).2⟩⟩
          have hres := ih hsep2 hvals2
          rw [holeMatch_subst n l rest2 _ _ (σ n) [] hne
            (fun c hc => (hcs c hc).1)
            (fun c hc => fun hcl => (hcs c hc).2 (by
              rw [show litChars (TSeg.hole n :: TSeg.lit l :: rest2) =
                litChars (TSeg.lit l :: rest2) from rfl, litChars]
              exact List.mem_append_left _ hcl)) hl hres]
          rw [show holeNames (TSeg.hole n :: TSeg.lit l :: rest2) =
            n :: holeNames (TSeg.lit l :: rest2) from rfl]
          simp

/-- C8 counterexample: on template `[a]_[b].csv` with values
`a = "x_y"`, `b = "z"` the substituted filename is `x_y_z.csv`, but
extraction returns `a = "x"`, `b = "y_z"` — the lazy `.+?` groups split
at the first separator occurrence, not at the substitution boundary —
so the unconditional round-trip stated by the spec fails. -/
theorem C8_roundtrip_counterexample :
    substTemplate (parseTemplate "[a]_[b].csv".toList)
        (fun nm => if nm = "a" then "x_y".toList else "z".toList) =
      "x_y_z.csv".toList ∧
    extract_values_from_filename (parseTemplate "[a]_[b].csv".toList)
        "x_y_z.csv".toList =
      some [("a", "x".toList), ("b", "y_z".toList)] ∧
    some [("a", "x".toList), ("b", "y_z".toList)] ≠
      some ((holeNames (parseTemplate "[a]_[b].csv".toList)).map
        (fun nm => (nm, if nm = "a" then "x_y".toList else "z".toList))) := by
  refine ⟨rfl, ?_, by decide⟩
  rw [show parseTemplate "[a]_[b].csv".toList =
    [TSeg.hole "a", TSeg.lit ['_'], TSeg.hole "b",
      TSeg.lit ['.', 'c', 's', 'v']] from rfl]
  simp [extract_values_from_filename, searchSegs, segsMatch, holeMatch,
    List.isPrefixOf]

/-- C8 amended: the round-trip does hold for separated templates (every
placeholder is followed by a nonempty literal) when every substituted
value is nonempty, newline-free and avoids the template's literal
characters: extraction on the substituted filename returns exactly the
substituted values, in placeholder order. -/
theorem C8_roundtrip_amended (tmpl : List Char) (σ : String → List Char)
    (hsep : sepOk (parseTemplate tmpl) = true)
    (hvals : ∀ nm ∈ holeNames (parseTemplate tmpl), σ nm ≠ [] ∧
      ∀ c ∈ σ nm, c ≠ '\n' ∧ c ∉ litChars (parseTemplate tmpl)) :
    extract_values_from_filename (parseTemplate tmpl)
        (substTemplate (parseTemplate tmpl) σ) =
      some ((holeNames (parseTemplate tmpl)).map (fun nm => (nm, σ nm))) := by
  have h := segsMatch_subst (parseTemplate tmpl) σ [] hsep hvals
  rw [List.append_nil] at h
  unfold extract_values_from_filename
  cases hf : substTemplate (parseTemplate tmpl) σ with
  | nil =>
    rw [hf] at h
    rw [searchSegs, h]
  | cons c t =>
    rw [hf] at h
    rw [searchSegs, h]

/-- Witness for C8's amended theorem: template `[a]_[b].csv` with
values `a = "x"`, `b = "y"` round-trips. -/
theorem C8_roundtrip_amended_witness :
    extract_values_from_filename (parseTemplate "[a]_[b].csv".toList)
        (substTemplate (parseTemplate "[a]_[b].csv".toList)
          (fun nm => if nm = "a" then "x".toList else "y".toList)) =
      some [("a", "x".toList), ("b", "y".toList)] := by
  have h := C8_roundtrip_amended "[a]_[b].csv".toList
    (fun nm => if nm = "a" then "x".toList else "y".toList)
    (by decide) (by decide)
  rw [h]
  rfl

/-- C10 counterexample: constructing a `FilenameToColumn` with a
declared column `b` and a regex whose only named group is `a` succeeds
— `__init__` (src/data_sync/config.py:63) performs no check that every
declared column name has a corresponding named capture group, contrary
to the spec's claim. -/
theorem C10_validation_counterexample :
    mkFilenameToColumn [("b", ⟨"b", "b", none, false⟩)] none
        (some "(?P<a>.+)") =
      Except.ok ⟨[("b", ⟨"b", "b", none, false⟩)], none,
        some "(?P<a>.+)"⟩ := rfl

/-- C10 amended: construction succeeds exactly when one of template and
regex is supplied and the other is not — for any declared columns,
with no named-group coverage check — and fails with the
exactly-one-of error exactly when both or neither is supplied. -/
theorem C10_validation_amended
    (columns : List (String × FilenameColumnMapping))
    (template regex : Option String) :
    (mkFilenameToColumn columns template regex =
        Except.ok ⟨columns, template, regex⟩ ↔
      template.isNone ≠ regex.isNone) ∧
    (mkFilenameToColumn columns template regex =
        Except.error "Must specify exactly one of 'template' or 'regex'" ↔
      template.isNone = regex.isNone) := by
  unfold mkFilenameToColumn
  by_cases h : template.isNone = regex.isNone
  · rw [if_pos h]
    constructor
    · constructor
      · intro he
        cases he
      · intro hne
        exact absurd h hne
    · constructor
      · intro _
        exact h
      · intro _
        rfl
  · rw [if_neg h]
    constructor
    · constructor
      · intro _
        exact h
      · intro _
        rfl
    · constructor
      · intro he
        cases he
      · intro heq
        exact absurd heq h

/-- C4: when the target table does not yet exist, table creation
establishes the primary key as exactly the `IdentityMapping`
destination columns — all of them, in order, supporting compound keys
— with every definition column (including a filename-derived scope
column) present as a regular schema column; a scope column not among
the id columns is never part of the primary key. -/
theorem C4_compound_primary_key (st : Option Table)
    (id_mapping : List ColumnMapping)
    (columnsDef : List (String × String)) :
    (st = none →
      (compound_create_table st id_mapping columnsDef).primary_keys =
        id_mapping.map (fun cm => cm.db_column) ∧
      (compound_create_table st id_mapping columnsDef).schema = columnsDef ∧
      (compound_create_table st id_mapping columnsDef).rows = []) ∧
    (∀ sc ∈ columnsDef.map Prod.fst, st = none →
      sc ∉ id_mapping.map (fun cm => cm.db_column) →
      sc ∈ (compound_create_table st id_mapping columnsDef).schema.map Prod.fst ∧
      sc ∉ (compound_create_table st id_mapping columnsDef).primary_keys) := by
  constructor
  · intro h
    subst h
    exact ⟨rfl, rfl, rfl⟩
  · intro sc hsc h hnot
    subst h
    exact ⟨hsc, hnot⟩

/-- Witness for C4: a two-column identity mapping yields the compound
primary key `[sat_id, channel]`, and the scope column `sync_date` is in
the schema but not in the primary key. -/
theorem C4_compound_primary_key_witness :
    (compound_create_table none
      [⟨"sat", "sat_id", none⟩, ⟨"ch", "channel", none⟩]
      [("sat_id", "TEXT"), ("channel", "TEXT"), ("value", "TEXT"),
        ("sync_date", "TEXT")]).primary_keys = ["sat_id", "channel"] ∧
    "sync_date" ∈ (compound_create_table none
      [⟨"sat", "sat_id", none⟩, ⟨"ch", "channel", none⟩]
      [("sat_id", "TEXT"), ("channel", "TEXT"), ("value", "TEXT"),
        ("sync_date", "TEXT")]).schema.map Prod.fst ∧
    "sync_date" ∉ (compound_create_table none
      [⟨"sat", "sat_id", none⟩, ⟨"ch", "channel", none⟩]
      [("sat_id", "TEXT"), ("channel", "TEXT"), ("value", "TEXT"),
        ("sync_date", "TEXT")]).primary_keys := by
  have h := C4_compound_primary_key none
    [⟨"sat", "sat_id", none⟩, ⟨"ch", "channel", none⟩]
    [("sat_id", "TEXT"), ("channel", "TEXT"), ("value", "TEXT"),
      ("sync_date", "TEXT")]
  have h2 := h.2 "sync_date" (by decide) rfl (by decide)
  exact ⟨(h.1 rfl).1, h2.1, h2.2⟩

/-- Witness for C2: re-syncing the two-row CSV into the table produced
by the first sync returns the same state, the same row count and zero
deletions. -/
theorem C2_sync_idempotent_witness :
    syncCsvFile
      ⟨["id", "val"], [[("id", "1"), ("val", "a")], [("id", "2"), ("val", "b")]]⟩
      ⟨"t", ⟨"id", "id", none⟩, [], none⟩ none
      (some ⟨[("id", "TEXT"), ("val", "TEXT")], ["id"],
        [[("id", "1"), ("val", "a")], [("id", "2"), ("val", "b")]]⟩) =
    Except.ok (some ⟨[("id", "TEXT"), ("val", "TEXT")], ["id"],
      [[("id", "1"), ("val", "a")], [("id", "2"), ("val", "b")]]⟩, 2, 0) :=
  C2_sync_idempotent
    ⟨["id", "val"], [[("id", "1"), ("val", "a")], [("id", "2"), ("val", "b")]]⟩
    ⟨"t", ⟨"id", "id", none⟩, [], none⟩ none none
    (some ⟨[("id", "TEXT"), ("val", "TEXT")], ["id"],
      [[("id", "1"), ("val", "a")], [("id", "2"), ("val", "b")]]⟩) 2 0
    (fun t ht => nomatch ht) (by rfl)

/-- Witness for C3: with current ids `["1"]` and scope `2024-01-01`,
exactly the row with id `2` under that scope is deleted (count 1), the
row under scope `2024-01-02` survives, and an empty id list is a
no-op. -/
theorem C3_delete_stale_records_witness :
    (delete_stale_records
      ⟨[("id", "TEXT"), ("d", "TEXT")], ["id"],
        [[("id", "1"), ("d", "2024-01-01")], [("id", "2"), ("d", "2024-01-01")],
          [("id", "3"), ("d", "2024-01-02")]]⟩
      "id" "d" "2024-01-01" ["1"]).1.rows =
      [[("id", "1"), ("d", "2024-01-01")], [("id", "3"), ("d", "2024-01-02")]] ∧
    (delete_stale_records
      ⟨[("id", "TEXT"), ("d", "TEXT")], ["id"],
        [[("id", "1"), ("d", "2024-01-01")], [("id", "2"), ("d", "2024-01-01")],
          [("id", "3"), ("d", "2024-01-02")]]⟩
      "id" "d" "2024-01-01" ["1"]).2 = 1 ∧
    delete_stale_records
      ⟨[("id", "TEXT"), ("d", "TEXT")], ["id"],
        [[("id", "1"), ("d", "2024-01-01")], [("id", "2"), ("d", "2024-01-01")],
          [("id", "3"), ("d", "2024-01-02")]]⟩
      "id" "d" "2024-01-01" [] =
      (⟨[("id", "TEXT"), ("d", "TEXT")], ["id"],
        [[("id", "1"), ("d", "2024-01-01")], [("id", "2"), ("d", "2024-01-01")],
          [("id", "3"), ("d", "2024-01-02")]]⟩, 0) := by
  have h := C3_delete_stale_records
    ⟨[("id", "TEXT"), ("d", "TEXT")], ["id"],
      [[("id", "1"), ("d", "2024-01-01")], [("id", "2"), ("d", "2024-01-01")],
        [("id", "3"), ("d", "2024-01-02")]]⟩
    "id" "d" "2024-01-01" ["1"]
  have h0 := C3_delete_stale_records
    ⟨[("id", "TEXT"), ("d", "TEXT")], ["id"],
      [[("id", "1"), ("d", "2024-01-01")], [("id", "2"), ("d", "2024-01-01")],
        [("id", "3"), ("d", "2024-01-02")]]⟩
    "id" "d" "2024-01-01" []
  refine ⟨?_, ?_, h0.1 rfl⟩
  · rw [(h.2.1 (by decide)).1]
    rfl
  · rw [(h.2.1 (by decide)).2]
    rfl

/-- Witness for C5: upserting `(id 2, val c)` into a two-row table
updates exactly the second row in place, keeping the row count at 2. -/
theorem C5_upsert_conflict_update_witness :
    (upsert_row
      ⟨[("id", "TEXT"), ("val", "TEXT")], ["id"],
        [[("id", "1"), ("val", "a")], [("id", "2"), ("val", "b")]]⟩
      ["id"] [("id", "2"), ("val", "c")]).rows.length = 2 ∧
    (upsert_row
      ⟨[("id", "TEXT"), ("val", "TEXT")], ["id"],
        [[("id", "1"), ("val", "a")], [("id", "2"), ("val", "b")]]⟩
      ["id"] [("id", "2"), ("val", "c")]).rows =
      [[("id", "1"), ("val", "a")], [("id", "2"), ("val", "c")]] := by
  have h := C5_upsert_conflict_update
    ⟨[("id", "TEXT"), ("val", "TEXT")], ["id"],
      [[("id", "1"), ("val", "a")], [("id", "2"), ("val", "b")]]⟩
    ["id"] [("id", "2"), ("val", "c")] 1 (by unfold NoDupKeys; decide) (by rfl)
  refine ⟨h.2.1.trans (by rfl), ?_⟩
  rw [h.2.2.1]
  rfl

/-- Witness for C6: syncing a CSV with a new `val` column into a table
that only has `id` leaves every destination column present afterwards,
and the new schema extends the old one. -/
theorem C6_schema_evolution_witness :
    ∃ syncCols, buildSyncColumns ["id", "val"]
        ⟨"t", ⟨"id", "id", none⟩, [], none⟩ = Except.ok syncCols ∧
      (∀ p ∈ buildColumnsDef syncCols ⟨"t", ⟨"id", "id", none⟩, [], none⟩,
        pyLower p.1 ∈ get_existing_columns
          (some ⟨[("id", "TEXT"), ("val", "TEXT")], ["id"],
            [[("id", "1"), ("val", "a")], [("id", "2"), ("val", "b")]]⟩)) ∧
      (∀ t0, (some ⟨[("id", "TEXT")], ["id"], []⟩ : Option Table) = some t0 →
        ∃ added, ([("id", "TEXT"), ("val", "TEXT")] : List (String × String)) =
          t0.schema ++ added) :=
  C6_schema_evolution
    ⟨["id", "val"], [[("id", "1"), ("val", "a")], [("id", "2"), ("val", "b")]]⟩
    ⟨"t", ⟨"id", "id", none⟩, [], none⟩ none
    (some ⟨[("id", "TEXT")], ["id"], []⟩)
    ⟨[("id", "TEXT"), ("val", "TEXT")], ["id"],
      [[("id", "1"), ("val", "a")], [("id", "2"), ("val", "b")]]⟩ 2 0 (by rfl)

end DataSync
